import Mathlib

/-!
# CustomMalloc: a verification development for `mymalloc.c`

The allocator keeps every block (used or free) in one address-ordered doubly
linked list whose nodes are `Header` records stored in front of each payload.
The heap grows and shrinks at its high end through `sbrk`.

Embedding conventions.

* Addresses and `size_t` values are natural numbers; every arithmetic step the C
  code performs on them is reduced modulo `2 ^ 64` (LP64).
* Memory is typed: it maps the address of a `Header` to its four fields.  This is
  exact as long as two headers never overlap partially.  The runs in which they do
  are evaluated over byte-addressed memory (`namespace Bytes`), where an access to the
  first page of the address space traps.
* `NULL` is address `0`.  In typed memory no access traps: a dereference of `NULL`
  reads or writes the record at address `0`, and a header at or above the break is
  read and written like any other.
* `sbrk` is the call of glibc on Linux.  Growth always succeeds (the source never
  checks the result) and moves the break by the increment, modulo `2 ^ 64`.  A
  decrement never takes the break below the break the program started with.
* The `int` parameter of `findFreeBlock` and `expand_heap` is an `Int`; the
  conversions `size_t → int` and `int → size_t` are `to_int` and `to_size_t`.
* The scan of `findFreeBlock` takes fuel; running out of fuel is `none`.
-/

namespace CustomMalloc

/-! ## Constants -/

/-- All allocations are forced to be at least this many bytes. -/
def MINIMUM_ALLOCATION : Nat := 16

/-- All allocations are rounded up to a multiple of this number. -/
def SIZE_MULTIPLE : Nat := 8

/-- The value of `sizeof(Header)` on LP64: `bool` padded to 8 bytes, a `size_t`
and two pointers. -/
def sizeof_Header : Nat := 32

/-- Number of values of a 64-bit word (`size_t`, pointers). -/
def WORD : Nat := 18446744073709551616

/-- The null pointer. -/
def NULL : Nat := 0

/-- The first 64-bit word that is negative when read as an `intptr_t` (`2 ^ 63`). -/
def INTPTR_MIN_WORD : Nat := 9223372036854775808

/-! ## Data model -/

/-- The `Header` struct of the source. -/
structure Header where
  used : Bool
  size : Nat
  prev : Nat
  next : Nat
deriving DecidableEq

/-- Process state seen by the allocator: typed memory, the two globals, the program
break, and the break the program started with (the kernel keeps it to bound how far
the break can be lowered). -/
structure Heap where
  mem : Nat → Header
  heap_head : Nat
  heap_tail : Nat
  brk : Nat
  start_brk : Nat

/-! ## Machine arithmetic -/

/-- Conversion `size_t → int` (keeps the low 32 bits, two's complement). -/
def to_int (x : Nat) : Int :=
  if x % 4294967296 < 2147483648 then ((x % 4294967296 : Nat) : Int)
  else ((x % 4294967296 : Nat) : Int) - 4294967296

/-- Conversion `int → size_t` (sign extension, i.e. reduction modulo `2 ^ 64`). -/
def to_size_t (i : Int) : Nat := (i % (WORD : Int)).toNat

/-- Unsigned 64-bit addition. -/
def add64 (a b : Nat) : Nat := (a + b) % WORD

/-- Unsigned 64-bit subtraction. -/
def sub64 (a b : Nat) : Nat := (a % WORD + (WORD - b % WORD)) % WORD

/-- Unsigned 64-bit negation. -/
def neg64 (a : Nat) : Nat := (WORD - a % WORD) % WORD

/-- Bitwise complement of an `int` constant, seen as a `size_t`. -/
def not64 (a : Nat) : Nat := WORD - 1 - a % WORD

/-- Modelled from the spec: the macro `PTR_ADD_BYTES` of the missing header
`mymalloc.h`; the remainder block starts right after the first `size` payload
bytes, so the macro adds a byte count to an address. -/
def PTR_ADD_BYTES (p n : Nat) : Nat := add64 p n

/-! ## Field writes -/

/-- Write of `p->used`. -/
def set_used (h : Heap) (p : Nat) (v : Bool) : Heap :=
  { h with mem := Function.update h.mem p { h.mem p with used := v } }

/-- Write of `p->size`. -/
def set_size (h : Heap) (p : Nat) (v : Nat) : Heap :=
  { h with mem := Function.update h.mem p { h.mem p with size := v } }

/-- Write of `p->prev`. -/
def set_prev (h : Heap) (p : Nat) (v : Nat) : Heap :=
  { h with mem := Function.update h.mem p { h.mem p with prev := v } }

/-- Write of `p->next`. -/
def set_next (h : Heap) (p : Nat) (v : Nat) : Heap :=
  { h with mem := Function.update h.mem p { h.mem p with next := v } }

/-! ## The functions of `mymalloc.c` -/

/-- The function `round_up_size`. -/
def round_up_size (data_size : Nat) : Nat :=
  if data_size = 0 then 0
  else if data_size < MINIMUM_ALLOCATION then MINIMUM_ALLOCATION
  else Nat.land (add64 data_size (SIZE_MULTIPLE - 1)) (not64 (SIZE_MULTIPLE - 1))

/-- The function `node_link`. -/
def node_link (n after : Nat) (h : Heap) : Heap :=
  if n = NULL then h
  else if after = NULL then { h with heap_head := n, heap_tail := n }
  else if (h.mem after).next = NULL then
    let h1 := set_prev h n after
    let h2 := set_next h1 after n
    let h3 := set_next h2 n NULL
    { h3 with heap_tail := n }
  else
    let h1 := set_next h n (h.mem after).next
    let h2 := set_prev h1 n after
    let h3 := set_prev h2 (h2.mem after).next n
    set_next h3 after n

/-- The function `node_unlink`. -/
def node_unlink (n : Nat) (h : Heap) : Heap :=
  if n = NULL then h
  else if h.heap_head = n ∧ h.heap_tail = n then
    { h with heap_head := NULL, heap_tail := NULL }
  else if h.heap_head = n then
    let h1 := { h with heap_head := (h.mem n).next }
    set_prev h1 (h1.mem n).next NULL
  else if h.heap_tail = n then
    let h1 := { h with heap_tail := (h.mem n).prev }
    set_next h1 (h1.mem n).prev NULL
  else
    let h1 := set_prev h (h.mem n).next (h.mem n).prev
    set_next h1 (h1.mem n).prev (h1.mem n).next

/-- The function `node_coalesce_with_next`. -/
def node_coalesce_with_next (n : Nat) (h : Heap) : Heap :=
  if (h.mem n).next = NULL then h
  else
    let next_node := (h.mem n).next
    let h1 := set_size h n
      (add64 (h.mem n).size (add64 (h.mem next_node).size sizeof_Header))
    if (h1.mem (h1.mem n).next).next = NULL then
      let h2 := { h1 with heap_tail := n }
      set_next h2 n NULL
    else
      let h2 := set_prev h1 (h1.mem next_node).next n
      set_next h2 n (h2.mem next_node).next

/-- The function `node_coalesce_with_neighbors`; the result is the surviving block
and the new state. -/
def node_coalesce_with_neighbors (n : Nat) (h : Heap) : Nat × Heap :=
  if (h.mem n).prev = NULL ∧ (h.mem n).next = NULL then (n, h)
  else
    let prev := (h.mem n).prev
    if prev = NULL then
      if (h.mem (h.mem n).next).used = false then (n, node_coalesce_with_next n h)
      else (n, h)
    else if (h.mem n).next = NULL then
      if (h.mem prev).used = false then (prev, node_coalesce_with_next prev h)
      else (n, h)
    else if (h.mem (h.mem n).next).used = false ∧ (h.mem prev).used = false then
      (prev, node_coalesce_with_next prev (node_coalesce_with_next prev h))
    else if (h.mem (h.mem n).next).used = false then (n, node_coalesce_with_next n h)
    else if (h.mem prev).used = false then (prev, node_coalesce_with_next prev h)
    else (n, h)

/-- The loop of `findFreeBlock`, started at node `n`; `none` when the fuel runs
out before the scan ends. -/
def findFreeBlock_loop (size : Int) : Nat → Nat → Heap → Option (Nat × Heap)
  | 0, _, _ => none
  | fuel + 1, n, h =>
    if n = NULL then some (NULL, h)
    else if (h.mem n).used = false ∧ to_size_t size ≤ (h.mem n).size then
      let h1 := set_used h n true
      if add64 (add64 (to_size_t size) sizeof_Header) MINIMUM_ALLOCATION ≤ (h1.mem n).size then
        let new_block := PTR_ADD_BYTES n (add64 sizeof_Header (to_size_t size))
        let h2 := set_used h1 new_block false
        let h3 := set_size h2 new_block
          (sub64 (sub64 (h2.mem n).size (to_size_t size)) sizeof_Header)
        let h4 := node_link new_block n h3
        some (n, set_size h4 n (to_size_t size))
      else some (n, h1)
    else findFreeBlock_loop size fuel (h.mem n).next h

/-- The function `findFreeBlock`.  A list whose nodes are distinct non-null
addresses below the break has fewer than `brk` nodes, which bounds the scan. -/
def findFreeBlock (size : Int) (h : Heap) : Option (Nat × Heap) :=
  findFreeBlock_loop size (h.brk + 1) h.heap_head h

/-- The library call `sbrk` (glibc on Linux).  Its argument is an `intptr_t`; `incr`
is the 64-bit word the C code passes, so a word from `2 ^ 63` on is a decrement by
`2 ^ 64 - incr` bytes.  An increment returns the old break and moves the break,
modulo `2 ^ 64` (growth is taken to succeed).  A decrement larger than the break
itself fails in the library, which returns `(void*) -1`.  A decrement that would take
the break below the initial break is refused by the kernel: the break stays where it
is and the old break is returned.  Any other decrement returns the old break and
lowers the break. -/
def sbrk (incr : Nat) (h : Heap) : Nat × Heap :=
  if incr < INTPTR_MIN_WORD then (h.brk, { h with brk := add64 h.brk incr })
  else if h.brk < WORD - incr then (WORD - 1, h)
  else if h.brk - (WORD - incr) < h.start_brk then (h.brk, h)
  else (h.brk, { h with brk := h.brk - (WORD - incr) })

/-- The function `expand_heap`. -/
def expand_heap (size : Int) (h : Heap) : Nat × Heap :=
  let r := sbrk (add64 sizeof_Header (to_size_t size)) h
  let header := r.1
  let h1 := set_used r.2 header true
  let h2 := set_size h1 header (to_size_t size)
  (header, node_link header h2.heap_tail h2)

/-- The function `shrink_heap`. -/
def shrink_heap (h : Heap) : Heap :=
  let r := sbrk (neg64 (add64 sizeof_Header (h.mem h.heap_tail).size)) h
  node_unlink r.2.heap_tail r.2

/-- The function `my_malloc`: the returned pointer and the new state. -/
def my_malloc (size : Nat) (h : Heap) : Option (Nat × Heap) :=
  if size = 0 then some (NULL, h)
  else
    let size1 := round_up_size size
    match findFreeBlock (to_int size1) h with
    | none => none
    | some (header, h1) =>
      if header = NULL then
        let r := expand_heap (to_int size1) h1
        some (add64 r.1 sizeof_Header, r.2)
      else some (add64 header sizeof_Header, h1)

/-- The function `my_free`. -/
def my_free (ptr : Nat) (h : Heap) : Heap :=
  if ptr = NULL then h
  else
    let header := sub64 ptr sizeof_Header
    let h1 := set_used h header false
    let r := node_coalesce_with_neighbors header h1
    if r.1 = r.2.heap_tail then shrink_heap r.2 else r.2


/-! ## Abstraction: the block list a heap state represents -/

/-- Bytes taken by a list of blocks `(used, size)`: one header and the payload for each. -/
def foot : List (Bool × Nat) → Nat
  | [] => 0
  | b :: rest => sizeof_Header + b.2 + foot rest

/-- A run of consecutive list nodes: entered through pointer `a` with the preceding
node `p`, first byte at `x`; left through pointer `a'` with last node `p'`, first
byte after the run at `x'`. -/
def Seg (m : Nat → Header) : Nat → Nat → Nat → List (Bool × Nat) → Nat → Nat → Nat → Prop
  | p, a, x, [], p', a', x' => p = p' ∧ a = a' ∧ x = x'
  | p, a, x, b :: rest, p', a', x' =>
      a = x ∧ (m x).used = b.1 ∧ (m x).size = b.2 ∧ (m x).prev = p ∧
      Seg m x (m x).next (x + sizeof_Header + b.2) rest p' a' x'

/-- Well-formed heap: starting at the address `b0` where the break stood before the
first allocation (at or above the break the program started with), the list from
`heap_head` to `heap_tail` is exactly the sequence `L` of blocks laid out back to back
up to the break.  In the empty region the first header slot holds null links (fresh
memory, or what the last shrink left behind). -/
def Rep (b0 : Nat) (h : Heap) (L : List (Bool × Nat)) : Prop :=
  (0 < b0 ∧ h.start_brk ≤ b0) ∧ h.brk < WORD ∧
  Seg h.mem NULL h.heap_head b0 L h.heap_tail NULL h.brk ∧
  (L = [] → (h.mem b0).prev = NULL ∧ (h.mem b0).next = NULL)


/-- Coalescing on the represented list: the block of size `s` that follows the prefix
`L1` and precedes `L2` absorbs a free successor and is absorbed by a free
predecessor.  The result is the prefix before the survivor, the survivor's size and
the blocks after it. -/
def coal (L1 : List (Bool × Nat)) (s : Nat) (L2 : List (Bool × Nat)) :
    List (Bool × Nat) × Nat × List (Bool × Nat) :=
  let r : Nat × List (Bool × Nat) :=
    match L2 with
    | (false, s2) :: L3 => (s + s2 + sizeof_Header, L3)
    | _ => (s, L2)
  match L1.reverse with
  | (false, s0) :: R0 => (R0.reverse, s0 + r.1 + sizeof_Header, r.2)
  | _ => (L1, r.1, r.2)

/-- Release on the represented list: coalesce, then drop the survivor when it is last. -/
def free_blocks (L1 : List (Bool × Nat)) (s : Nat) (L2 : List (Bool × Nat)) :
    List (Bool × Nat) :=
  let c := coal L1 s L2
  if c.2.2 = [] then c.1 else c.1 ++ (false, c.2.1) :: c.2.2

/-- The size `findFreeBlock` and `expand_heap` work with for a request of `size`
bytes: the rounded size after its passage through their `int` parameter. -/
def eff (size : Nat) : Nat := to_size_t (to_int (round_up_size size))

/-- The empty region with the break at `b0`: no list, zero-filled memory. -/
def empty_region (b0 : Nat) : Heap :=
  { mem := fun _ => { used := false, size := 0, prev := NULL, next := NULL },
    heap_head := NULL, heap_tail := NULL, brk := b0, start_brk := b0 }

/-- On a given memory `Seg` is a finite conjunction of equalities. -/
instance Seg.dec (m : Nat → Header) :
    (L : List (Bool × Nat)) → (p a x p' a' x' : Nat) → Decidable (Seg m p a x L p' a' x')
  | [], p, a, x, p', a', x' => (inferInstance : Decidable (p = p' ∧ a = a' ∧ x = x'))
  | b :: rest, p, a, x, p', a', x' =>
    have : Decidable (Seg m x (m x).next (x + sizeof_Header + b.2) rest p' a' x') :=
      Seg.dec m rest x (m x).next (x + sizeof_Header + b.2) p' a' x'
    (inferInstance : Decidable (a = x ∧ (m x).used = b.1 ∧ (m x).size = b.2 ∧ (m x).prev = p ∧
      Seg m x (m x).next (x + sizeof_Header + b.2) rest p' a' x'))

instance Rep.dec (b0 : Nat) (h : Heap) (L : List (Bool × Nat)) : Decidable (Rep b0 h L) :=
  (inferInstance : Decidable ((0 < b0 ∧ h.start_brk ≤ b0) ∧ h.brk < WORD ∧
    Seg h.mem NULL h.heap_head b0 L h.heap_tail NULL h.brk ∧
    (L = [] → (h.mem b0).prev = NULL ∧ (h.mem b0).next = NULL)))

/-- A heap with a free block of 16 bytes followed by a used block of 16 bytes. -/
def heap_free_used : Heap :=
  { mem := fun a =>
      if a = 4096 then { used := false, size := 16, prev := 0, next := 4144 }
      else if a = 4144 then { used := true, size := 16, prev := 4096, next := 0 }
      else { used := false, size := 0, prev := 0, next := 0 },
    heap_head := 4096, heap_tail := 4144, brk := 4192, start_brk := 4096 }

/-- A heap with a free block of 104 bytes (what `my_malloc 100` creates) followed by
a used block of 16 bytes. -/
def heap_free104_used : Heap :=
  { mem := fun a =>
      if a = 4096 then { used := false, size := 104, prev := 0, next := 4232 }
      else if a = 4232 then { used := true, size := 16, prev := 4096, next := 0 }
      else { used := false, size := 0, prev := 0, next := 0 },
    heap_head := 4096, heap_tail := 4232, brk := 4280, start_brk := 4096 }

/-! ## Invariants of the block list and reachable states -/

/-- No two consecutive blocks are both free. -/
def no_adjacent_free (L : List (Bool × Nat)) : Prop :=
  L.Chain' (fun a b => a.1 = true ∨ b.1 = true)

/-- The last block, when there is one, is used. -/
def tail_used (L : List (Bool × Nat)) : Prop :=
  ∀ b ∈ L.getLast?, b.1 = true

/-- Every block has a size of at least `MINIMUM_ALLOCATION` that is a multiple of
`SIZE_MULTIPLE`. -/
def sizes_rounded (L : List (Bool × Nat)) : Prop :=
  ∀ b ∈ L, MINIMUM_ALLOCATION ≤ b.2 ∧ b.2 % SIZE_MULTIPLE = 0

/-- Payload addresses of the used blocks of a list laid out from address `x`. -/
def handles : Nat → List (Bool × Nat) → List Nat
  | _, [] => []
  | x, b :: rest =>
    if b.1 = true then (x + sizeof_Header) :: handles (x + sizeof_Header + b.2) rest
    else handles (x + sizeof_Header + b.2) rest

/-- States reached from the empty region at `b0` by `my_malloc` with requests of at
most `INT_MAX - 7` bytes, for which `sbrk` did not wrap the break around, and by
`my_free` on live handles; the second component lists the live handles. -/
inductive Reachable (b0 : Nat) : Heap → List Nat → Prop
  | init : 0 < b0 → b0 < WORD → Reachable b0 (empty_region b0) []
  | malloc {h h' : Heap} {live : List Nat} {s p : Nat} :
      Reachable b0 h live → 0 < s → s ≤ 2147483640 → my_malloc s h = some (p, h') →
      h.brk ≤ h'.brk → Reachable b0 h' (p :: live)
  | free {h : Heap} {live : List Nat} {p : Nat} :
      Reachable b0 h live → p ∈ live →
      Reachable b0 (my_free p h) (live.filter (fun q => q ≠ p))
/-- An empty region whose first header slot holds a stale `next` link: no list, break
at 4096, and the record at 4096 has `next = 4144`. -/
def heap_stale_next : Heap :=
  { mem := fun a =>
      if a = 4096 then { used := false, size := 0, prev := 0, next := 4144 }
      else { used := false, size := 0, prev := 0, next := 0 },
    heap_head := NULL, heap_tail := NULL, brk := 4096, start_brk := 4096 }

/-! ## Traversals and the list as a chain of nodes -/

/-- Addresses of the blocks of a list laid out back to back from address `x`. -/
def addrs : Nat → List (Bool × Nat) → List Nat
  | _, [] => []
  | x, b :: rest => x :: addrs (x + sizeof_Header + b.2) rest

/-- The traversal `for(block = heap_head; block != NULL; block = block->next)` of
`my_dump`, started at node `n`: the addresses visited, `none` when the fuel runs out
before `NULL` is reached. -/
def forward_traversal (h : Heap) : Nat → Nat → Option (List Nat)
  | 0, _ => none
  | fuel + 1, n =>
    if n = NULL then some []
    else (forward_traversal h fuel (h.mem n).next).map (fun l => n :: l)

/-- The same traversal along `prev`, as run from `heap_tail`. -/
def backward_traversal (h : Heap) : Nat → Nat → Option (List Nat)
  | 0, _ => none
  | fuel + 1, n =>
    if n = NULL then some []
    else (backward_traversal h fuel (h.mem n).prev).map (fun l => n :: l)

/-- The nodes `as` are chained in this order: each is non-null, the first has `prev = p`,
every `next` is the following node and every `prev` the preceding one, and the last has
`next = q`. -/
def Links (m : Nat → Header) : Nat → List Nat → Nat → Prop
  | _, [], _ => True
  | p, a :: rest, q =>
      a ≠ NULL ∧ (m a).prev = p ∧ (m a).next = rest.headD q ∧ Links m a rest q

/-- Well-formed list: the nodes `as`, whose headers do not overlap, are chained from
`heap_head` to `heap_tail` with `NULL` at both ends. -/
def Linked (h : Heap) (as : List Nat) : Prop :=
  as.Pairwise (fun x y => x + sizeof_Header ≤ y ∨ y + sizeof_Header ≤ x) ∧
  Links h.mem NULL as NULL ∧ h.heap_head = as.headD NULL ∧ h.heap_tail = as.getLastD NULL

instance Links.dec (m : Nat → Header) :
    (as : List Nat) → (p q : Nat) → Decidable (Links m p as q)
  | [], _, _ => (inferInstance : Decidable True)
  | a :: rest, p, q =>
    have : Decidable (Links m a rest q) := Links.dec m rest a q
    (inferInstance : Decidable (a ≠ NULL ∧ (m a).prev = p ∧ (m a).next = rest.headD q ∧
      Links m a rest q))

instance Linked.dec (h : Heap) (as : List Nat) : Decidable (Linked h as) :=
  (inferInstance : Decidable (
    as.Pairwise (fun x y => x + sizeof_Header ≤ y ∨ y + sizeof_Header ≤ x) ∧
    Links h.mem NULL as NULL ∧ h.heap_head = as.headD NULL ∧ h.heap_tail = as.getLastD NULL))

/-! ## Byte-addressed memory

The part of the program that `my_malloc` runs, over memory that maps an address to a
byte.  The fields of a `Header` at address `p` lie at their LP64 offsets, in
little-endian byte order: `used` is the byte at `p`, `size` the eight bytes at `p + 8`,
`prev` those at `p + 16` and `next` those at `p + 24`.  A write to one header changes
the fields of every header that shares the bytes written. -/

namespace Bytes

/-- Process state with byte-addressed memory: the byte stored at each address, the two
globals, the program break and the break the program started with. -/
structure Heap where
  mem : Nat → Nat
  heap_head : Nat
  heap_tail : Nat
  brk : Nat
  start_brk : Nat

/-- Why a run stops without a result: an access traps at an address, or the fuel of a
scan runs out. -/
inductive Stop where
  | fault (addr : Nat)
  | fuel
deriving DecidableEq

/-- Size of the first page of the address space, which is never mapped. -/
def PAGE_SIZE : Nat := 4096

/-- An access of `len` bytes at address `a` traps when it starts in the first page or
runs past the end of the address space.  Every other access is taken to succeed. -/
def traps (a len : Nat) : Bool := decide (a < PAGE_SIZE) || decide (WORD < a + len)

/-- Little-endian value of the `len` bytes at address `a`. -/
def load (m : Nat → Nat) (a : Nat) : Nat → Nat
  | 0 => 0
  | len + 1 => m a % 256 + 256 * load m (a + 1) len

/-- Memory after the little-endian write of the `len` low bytes of `v` at address `a`. -/
def store (m : Nat → Nat) (a len v : Nat) : Nat → Nat :=
  fun x => if a ≤ x ∧ x < a + len then v / 256 ^ (x - a) % 256 else m x

/-- Read of `p->used` (one byte at offset 0). -/
def get_used (h : Heap) (p : Nat) : Except Stop Bool :=
  if traps p 1 then .error (Stop.fault p) else .ok (decide (load h.mem p 1 ≠ 0))

/-- Read of `p->size` (eight bytes at offset 8). -/
def get_size (h : Heap) (p : Nat) : Except Stop Nat :=
  if traps (add64 p 8) 8 then .error (Stop.fault (add64 p 8))
  else .ok (load h.mem (add64 p 8) 8)

/-- Read of `p->next` (eight bytes at offset 24). -/
def get_next (h : Heap) (p : Nat) : Except Stop Nat :=
  if traps (add64 p 24) 8 then .error (Stop.fault (add64 p 24))
  else .ok (load h.mem (add64 p 24) 8)

/-- Write of `p->used`. -/
def set_used (h : Heap) (p : Nat) (v : Bool) : Except Stop Heap :=
  if traps p 1 then .error (Stop.fault p)
  else .ok { h with mem := store h.mem p 1 (if v then 1 else 0) }

/-- Write of `p->size`. -/
def set_size (h : Heap) (p : Nat) (v : Nat) : Except Stop Heap :=
  if traps (add64 p 8) 8 then .error (Stop.fault (add64 p 8))
  else .ok { h with mem := store h.mem (add64 p 8) 8 v }

/-- Write of `p->prev` (eight bytes at offset 16). -/
def set_prev (h : Heap) (p : Nat) (v : Nat) : Except Stop Heap :=
  if traps (add64 p 16) 8 then .error (Stop.fault (add64 p 16))
  else .ok { h with mem := store h.mem (add64 p 16) 8 v }

/-- Write of `p->next`. -/
def set_next (h : Heap) (p : Nat) (v : Nat) : Except Stop Heap :=
  if traps (add64 p 24) 8 then .error (Stop.fault (add64 p 24))
  else .ok { h with mem := store h.mem (add64 p 24) 8 v }

/-- The function `node_link`. -/
def node_link (n after : Nat) (h : Heap) : Except Stop Heap :=
  if n = NULL then .ok h
  else if after = NULL then .ok { h with heap_head := n, heap_tail := n }
  else do
    let after_next ← get_next h after
    if after_next = NULL then
      let h1 ← set_prev h n after
      let h2 ← set_next h1 after n
      let h3 ← set_next h2 n NULL
      pure { h3 with heap_tail := n }
    else
      let h1 ← set_next h n after_next
      let h2 ← set_prev h1 n after
      let after_next2 ← get_next h2 after
      let h3 ← set_prev h2 after_next2 n
      set_next h3 after n

/-- The loop of `findFreeBlock`, started at node `n`. -/
def findFreeBlock_loop (size : Int) : Nat → Nat → Heap → Except Stop (Nat × Heap)
  | 0, _, _ => .error Stop.fuel
  | fuel + 1, n, h =>
    if n = NULL then .ok (NULL, h)
    else do
      let used ← get_used h n
      let fits ← (if used = false then do
          let sz ← get_size h n
          pure (decide (to_size_t size ≤ sz))
        else pure false)
      if fits = true then
        let h1 ← set_used h n true
        let sz1 ← get_size h1 n
        if add64 (add64 (to_size_t size) sizeof_Header) MINIMUM_ALLOCATION ≤ sz1 then
          let new_block := PTR_ADD_BYTES n (add64 sizeof_Header (to_size_t size))
          let h2 ← set_used h1 new_block false
          let sz2 ← get_size h2 n
          let h3 ← set_size h2 new_block (sub64 (sub64 sz2 (to_size_t size)) sizeof_Header)
          let h4 ← node_link new_block n h3
          let h5 ← set_size h4 n (to_size_t size)
          pure (n, h5)
        else pure (n, h1)
      else do
        let next ← get_next h n
        findFreeBlock_loop size fuel next h

/-- The function `findFreeBlock`. -/
def findFreeBlock (size : Int) (h : Heap) : Except Stop (Nat × Heap) :=
  findFreeBlock_loop size (h.brk + 1) h.heap_head h

/-- The library call `sbrk`, as for typed memory. -/
def sbrk (incr : Nat) (h : Heap) : Nat × Heap :=
  if incr < INTPTR_MIN_WORD then (h.brk, { h with brk := add64 h.brk incr })
  else if h.brk < WORD - incr then (WORD - 1, h)
  else if h.brk - (WORD - incr) < h.start_brk then (h.brk, h)
  else (h.brk, { h with brk := h.brk - (WORD - incr) })

/-- The function `expand_heap`. -/
def expand_heap (size : Int) (h : Heap) : Except Stop (Nat × Heap) := do
  let r := sbrk (add64 sizeof_Header (to_size_t size)) h
  let header := r.1
  let h1 ← set_used r.2 header true
  let h2 ← set_size h1 header (to_size_t size)
  let h3 ← node_link header h2.heap_tail h2
  pure (header, h3)

/-- The function `my_malloc`. -/
def my_malloc (size : Nat) (h : Heap) : Except Stop (Nat × Heap) :=
  if size = 0 then .ok (NULL, h)
  else do
    let size1 := round_up_size size
    let r ← findFreeBlock (to_int size1) h
    if r.1 = NULL then
      let e ← expand_heap (to_int size1) r.2
      pure (add64 e.1 sizeof_Header, e.2)
    else pure (add64 r.1 sizeof_Header, r.2)

/-- The empty region with the break at `b0`: no list, zero-filled memory. -/
def empty_region (b0 : Nat) : Heap :=
  { mem := fun _ => 0, heap_head := NULL, heap_tail := NULL, brk := b0, start_brk := b0 }

end Bytes

/-! ## Basic facts about runs of nodes -/

theorem foot_append (L1 L2 : List (Bool × Nat)) : foot (L1 ++ L2) = foot L1 + foot L2 := by
  induction L1 with
  | nil => simp [foot]
  | cons b rest ih => simp [foot, ih]; omega

theorem Seg_end {m : Nat → Header} {L : List (Bool × Nat)} :
    ∀ {p a x p' a' x' : Nat}, Seg m p a x L p' a' x' → x' = x + foot L := by
  induction L with
  | nil => intro p a x p' a' x' hs; simp [Seg] at hs; simp [foot, hs.2.2]
  | cons b rest ih =>
    intro p a x p' a' x' hs
    simp only [Seg] at hs
    have := ih hs.2.2.2.2
    simp [foot, this]; omega

theorem Seg_congr {m m' : Nat → Header} {L : List (Bool × Nat)} :
    ∀ {p a x p' a' x' : Nat}, (∀ y, x ≤ y → y < x' → m' y = m y) →
      Seg m p a x L p' a' x' → Seg m' p a x L p' a' x' := by
  induction L with
  | nil => intro p a x p' a' x' _ hs; simpa [Seg] using hs
  | cons b rest ih =>
    intro p a x p' a' x' hm hs
    have he := Seg_end hs
    simp only [Seg] at hs ⊢
    obtain ⟨h1, h2, h3, h4, h5⟩ := hs
    have hx : m' x = m x := hm x (Nat.le_refl _) (by simp [foot, sizeof_Header] at he; omega)
    rw [hx]
    refine ⟨h1, h2, h3, h4, ih ?_ h5⟩
    intro y hy1 hy2
    exact hm y (by omega) hy2

theorem Seg_append {m : Nat → Header} {L1 L2 : List (Bool × Nat)} :
    ∀ {p a x p' a' x' : Nat}, Seg m p a x (L1 ++ L2) p' a' x' ↔
      ∃ p1 a1, Seg m p a x L1 p1 a1 (x + foot L1) ∧ Seg m p1 a1 (x + foot L1) L2 p' a' x' := by
  induction L1 with
  | nil =>
    intro p a x p' a' x'
    simp only [List.nil_append, Seg, foot, Nat.add_zero, and_true]
    constructor
    · intro hs; exact ⟨p, a, ⟨rfl, rfl⟩, hs⟩
    · rintro ⟨p1, a1, ⟨rfl, rfl⟩, hs⟩; exact hs
  | cons b rest ih =>
    intro p a x p' a' x'
    show Seg m p a x (b :: (rest ++ L2)) p' a' x' ↔ _
    simp only [Seg, foot]
    rw [ih]
    constructor
    · rintro ⟨h1, h2, h3, h4, p1, a1, h5, h6⟩
      refine ⟨p1, a1, ⟨h1, h2, h3, h4, ?_⟩, ?_⟩
      · rw [show x + (sizeof_Header + b.2 + foot rest) = x + sizeof_Header + b.2 + foot rest by omega]; exact h5
      · rw [show x + (sizeof_Header + b.2 + foot rest) = x + sizeof_Header + b.2 + foot rest by omega]; exact h6
    · rintro ⟨p1, a1, ⟨h1, h2, h3, h4, h5⟩, h6⟩
      refine ⟨h1, h2, h3, h4, p1, a1, ?_, ?_⟩
      · rw [show x + sizeof_Header + b.2 + foot rest = x + (sizeof_Header + b.2 + foot rest) by omega]; exact h5
      · rw [show x + sizeof_Header + b.2 + foot rest = x + (sizeof_Header + b.2 + foot rest) by omega]; exact h6


/-! ## Reads after writes -/

@[simp] theorem set_used_mem (h : Heap) (p : Nat) (v : Bool) (q : Nat) :
    (set_used h p v).mem q = if q = p then { h.mem p with used := v } else h.mem q := by
  simp [set_used, Function.update_apply]

@[simp] theorem set_size_mem (h : Heap) (p : Nat) (v : Nat) (q : Nat) :
    (set_size h p v).mem q = if q = p then { h.mem p with size := v } else h.mem q := by
  simp [set_size, Function.update_apply]

@[simp] theorem set_prev_mem (h : Heap) (p : Nat) (v : Nat) (q : Nat) :
    (set_prev h p v).mem q = if q = p then { h.mem p with prev := v } else h.mem q := by
  simp [set_prev, Function.update_apply]

@[simp] theorem set_next_mem (h : Heap) (p : Nat) (v : Nat) (q : Nat) :
    (set_next h p v).mem q = if q = p then { h.mem p with next := v } else h.mem q := by
  simp [set_next, Function.update_apply]

@[simp] theorem set_used_head (h : Heap) (p : Nat) (v : Bool) : (set_used h p v).heap_head = h.heap_head := rfl
@[simp] theorem set_used_tail (h : Heap) (p : Nat) (v : Bool) : (set_used h p v).heap_tail = h.heap_tail := rfl
@[simp] theorem set_used_brk (h : Heap) (p : Nat) (v : Bool) : (set_used h p v).brk = h.brk := rfl
@[simp] theorem set_size_head (h : Heap) (p : Nat) (v : Nat) : (set_size h p v).heap_head = h.heap_head := rfl
@[simp] theorem set_size_tail (h : Heap) (p : Nat) (v : Nat) : (set_size h p v).heap_tail = h.heap_tail := rfl
@[simp] theorem set_size_brk (h : Heap) (p : Nat) (v : Nat) : (set_size h p v).brk = h.brk := rfl
@[simp] theorem set_prev_head (h : Heap) (p : Nat) (v : Nat) : (set_prev h p v).heap_head = h.heap_head := rfl
@[simp] theorem set_prev_tail (h : Heap) (p : Nat) (v : Nat) : (set_prev h p v).heap_tail = h.heap_tail := rfl
@[simp] theorem set_prev_brk (h : Heap) (p : Nat) (v : Nat) : (set_prev h p v).brk = h.brk := rfl
@[simp] theorem set_next_head (h : Heap) (p : Nat) (v : Nat) : (set_next h p v).heap_head = h.heap_head := rfl
@[simp] theorem set_next_tail (h : Heap) (p : Nat) (v : Nat) : (set_next h p v).heap_tail = h.heap_tail := rfl
@[simp] theorem set_next_brk (h : Heap) (p : Nat) (v : Nat) : (set_next h p v).brk = h.brk := rfl
@[simp] theorem set_used_start (h : Heap) (p : Nat) (v : Bool) : (set_used h p v).start_brk = h.start_brk := rfl
@[simp] theorem set_size_start (h : Heap) (p : Nat) (v : Nat) : (set_size h p v).start_brk = h.start_brk := rfl
@[simp] theorem set_prev_start (h : Heap) (p : Nat) (v : Nat) : (set_prev h p v).start_brk = h.start_brk := rfl
@[simp] theorem set_next_start (h : Heap) (p : Nat) (v : Nat) : (set_next h p v).start_brk = h.start_brk := rfl

/-! ## Reading a well-formed heap -/

/-- What `Rep` says about the block that follows the prefix `L1`. -/
theorem Rep_split {b0 : Nat} {h : Heap} {L1 L2 : List (Bool × Nat)} {b : Bool × Nat} :
    Rep b0 h (L1 ++ b :: L2) ↔
      (0 < b0 ∧ h.start_brk ≤ b0) ∧ h.brk < WORD ∧ ∃ p1,
        Seg h.mem NULL h.heap_head b0 L1 p1 (b0 + foot L1) (b0 + foot L1) ∧
        (h.mem (b0 + foot L1)).used = b.1 ∧ (h.mem (b0 + foot L1)).size = b.2 ∧
        (h.mem (b0 + foot L1)).prev = p1 ∧
        Seg h.mem (b0 + foot L1) (h.mem (b0 + foot L1)).next
          (b0 + foot L1 + sizeof_Header + b.2) L2 h.heap_tail NULL h.brk := by
  unfold Rep
  rw [Seg_append]
  simp only [Seg]
  constructor
  · rintro ⟨h1, h2, ⟨p1, a1, h3, rfl, h4⟩, _⟩
    exact ⟨h1, h2, p1, h3, h4⟩
  · rintro ⟨h1, h2, p1, h3, h4⟩
    exact ⟨h1, h2, ⟨p1, _, h3, rfl, h4⟩, by simp⟩

theorem Rep_set_used {b0 : Nat} {h : Heap} {L1 L2 : List (Bool × Nat)} {u v : Bool} {s : Nat}
    (hr : Rep b0 h (L1 ++ (u, s) :: L2)) :
    Rep b0 (set_used h (b0 + foot L1) v) (L1 ++ (v, s) :: L2) := by
  rw [Rep_split] at hr ⊢
  obtain ⟨h1, h2, p1, h3, h4, h5, h6, h7⟩ := hr
  refine ⟨h1, h2, p1, ?_, ?_, ?_, ?_, ?_⟩
  · exact Seg_congr (fun y _ hy => by simp; intro hh; omega) h3
  · simp
  · simpa using h5
  · simpa using h6
  · simp only [set_used_mem, if_true, set_used_tail, set_used_brk]
    exact Seg_congr (fun y hy _ => by simp [sizeof_Header] at hy ⊢; intro hh; omega) h7

@[simp] theorem NULL_eq : NULL = 0 := rfl
@[simp] theorem sizeof_Header_eq : sizeof_Header = 32 := rfl
@[simp] theorem MINIMUM_ALLOCATION_eq : MINIMUM_ALLOCATION = 16 := rfl
@[simp] theorem SIZE_MULTIPLE_eq : SIZE_MULTIPLE = 8 := rfl

theorem add64_small {a b : Nat} (h : a + b < WORD) : add64 a b = a + b := by
  unfold add64; exact Nat.mod_eq_of_lt h

theorem Seg_le {m : Nat → Header} {L : List (Bool × Nat)} {p a x p' a' x' : Nat}
    (hs : Seg m p a x L p' a' x') : x ≤ x' := by
  have := Seg_end hs; omega

/-- Merging the block after the prefix `L1` with its successor, on the represented list. -/
theorem Rep_coalesce_next {b0 : Nat} {h : Heap} {L1 L3 : List (Bool × Nat)} {u u2 : Bool}
    {s s2 : Nat} (hr : Rep b0 h (L1 ++ (u, s) :: (u2, s2) :: L3)) :
    Rep b0 (node_coalesce_with_next (b0 + foot L1) h)
      (L1 ++ (u, s + s2 + sizeof_Header) :: L3) := by
  rw [Rep_split] at hr ⊢
  obtain ⟨h1, h2, p1, h3, h4, h5, h6, h7⟩ := hr
  simp only [Seg] at h7
  obtain ⟨h7a, h7b, h7c, h7d, h7e⟩ := h7
  have hle := Seg_le h7e
  generalize b0 + foot L1 = n at *
  simp only [sizeof_Header_eq, NULL_eq] at *
  have hsum : add64 s (add64 s2 32) = s + s2 + 32 := by
    have e0 : add64 s2 32 = s2 + 32 := add64_small (by omega)
    rw [e0, add64_small (by omega)]; omega
  cases L3 with
  | nil =>
    simp only [Seg] at h7e
    obtain ⟨h8, h9, h10⟩ := h7e
    have hc : node_coalesce_with_next n h =
        set_next { set_size h n (s + s2 + 32) with heap_tail := n } n 0 := by
      unfold node_coalesce_with_next
      have e1 : ¬ (h.mem n).next = 0 := by rw [h7a]; omega
      have e2 : ¬ (n + 32 + s) = n := by omega
      simp [e1, h7a, h9, h5, h7c, hsum, e2]
    rw [hc]
    refine ⟨h1, h2, p1, ?_, ?_, ?_, ?_, ?_⟩
    · refine Seg_congr (fun y _ hy => ?_) h3
      simp only [set_next_mem, set_size_mem]; split_ifs <;> first | rfl | (exfalso; omega)
    · simpa using h4
    · simp
    · simpa using h6
    · simp [Seg]; omega
  | cons c L4 =>
    simp only [Seg] at h7e
    obtain ⟨h8, h9, h10, h11, h12⟩ := h7e
    have hle2 := Seg_le h12
    simp only [sizeof_Header_eq, NULL_eq] at *
    have hc : node_coalesce_with_next n h =
        set_next (set_prev (set_size h n (s + s2 + 32)) (n + 32 + s + 32 + s2) n) n
          (n + 32 + s + 32 + s2) := by
      unfold node_coalesce_with_next
      have e1 : ¬ (h.mem n).next = 0 := by rw [h7a]; omega
      have e2 : ¬ (n + 32 + s) = n := by omega
      have e3 : ¬ (n + 32 + s + 32 + s2) = 0 := by omega
      have e4 : ¬ (n + 32 + s) = n + 32 + s + 32 + s2 := by omega
      simp [e1, h7a, h8, h5, h7c, hsum, e2, e3, e4]
    rw [hc]
    have e5 : ¬ n = n + 32 + s + 32 + s2 := by omega
    have e5' : ¬ n + 32 + s + 32 + s2 = n := by omega
    refine ⟨h1, h2, p1, ?_, ?_, ?_, ?_, ?_⟩
    · refine Seg_congr (fun y _ hy => ?_) h3
      simp only [set_next_mem, set_size_mem, set_prev_mem]
      split_ifs <;> first | rfl | (exfalso; omega)
    · simpa [e5] using h4
    · simp [e5]
    · simpa [e5] using h6
    · have e6 : n + 32 + (s + s2 + 32) = n + 32 + s + 32 + s2 := by omega
      simp only [Seg, set_next_mem, set_prev_mem, set_size_mem, if_true, e5', if_false,
        set_next_tail, set_prev_tail, set_size_tail, set_next_brk, set_prev_brk, set_size_brk, e6]
      refine ⟨trivial, h9, h10, trivial, ?_⟩
      refine Seg_congr (fun y hy _ => ?_) h12
      simp only [sizeof_Header_eq] at hy
      simp only [set_next_mem, set_size_mem, set_prev_mem]
      split_ifs <;> first | rfl | (exfalso; omega)

theorem Seg_entry {m : Nat → Header} {L : List (Bool × Nat)} {p a x p' x' : Nat}
    (hs : Seg m p a x L p' x' x') : a = x := by
  cases L with
  | nil => simp only [Seg] at hs; omega
  | cons b rest => simp only [Seg] at hs; exact hs.1

theorem sbrk_back {brk s : Nat} (h1 : 32 + s ≤ brk) (h2 : brk < WORD) :
    add64 brk (neg64 (add64 32 s)) = brk - 32 - s := by
  unfold add64 neg64 WORD at *
  omega

/-- An increment that is not negative as an `intptr_t` moves the break up. -/
theorem sbrk_grow {h : Heap} {incr : Nat} (h1 : incr < INTPTR_MIN_WORD) :
    sbrk incr h = (h.brk, { h with brk := add64 h.brk incr }) := by
  unfold sbrk; simp [h1]

/-- Giving back `32 + s` bytes that lie above the initial break lowers the break. -/
theorem sbrk_release {h : Heap} {s : Nat} (h1 : h.start_brk + 32 + s ≤ h.brk)
    (h2 : h.brk < WORD) :
    sbrk (neg64 (add64 32 s)) h = (h.brk, { h with brk := h.brk - 32 - s }) := by
  by_cases hc : neg64 (add64 32 s) < INTPTR_MIN_WORD
  · rw [sbrk_grow hc, sbrk_back (by omega) h2]
  · have e1 : WORD - neg64 (add64 32 s) = 32 + s := by
      unfold add64 neg64 WORD at *; omega
    have e2 : ¬ h.brk < 32 + s := by omega
    have e3 : ¬ h.brk - (32 + s) < h.start_brk := by omega
    have e4 : h.brk - (32 + s) = h.brk - 32 - s := by omega
    unfold sbrk
    simp only [hc, if_false, e1, e2, e3]
    rw [e4]

/-- Giving the last block back to the platform, on the represented list. -/
theorem Rep_shrink {b0 : Nat} {h : Heap} {L : List (Bool × Nat)} {u : Bool} {s : Nat}
    (hr : Rep b0 h (L ++ [(u, s)])) : Rep b0 (shrink_heap h) L := by
  rcases List.eq_nil_or_concat L with rfl | ⟨L0, c, rfl⟩
  · simp only [Rep, List.nil_append, Seg, NULL_eq, sizeof_Header_eq] at hr ⊢
    obtain ⟨h1, h2, ⟨h3, h4, h5, h6, h7, h8, h9⟩, _⟩ := hr
    have hb : h.brk - 32 - s = b0 := by omega
    have hs := sbrk_release (h := h) (s := s) (by omega) h2
    have hc : shrink_heap h = { h with brk := b0, heap_head := 0, heap_tail := 0 } := by
      unfold shrink_heap node_unlink
      have e1 : ¬ h.heap_tail = 0 := by omega
      simp [e1, ← h7, h3, h5, hs, hb]
    rw [hc]
    simp only [true_and, and_true]
    exact ⟨h1, by omega, fun _ => ⟨h6, h8⟩⟩
  · rw [List.concat_eq_append] at hr ⊢
    rw [List.append_assoc, List.singleton_append, Rep_split] at hr
    rw [show L0 ++ [c] = L0 ++ c :: [] from rfl, Rep_split]
    obtain ⟨h1, h2, p1, h3, h4, h5, h6, h7⟩ := hr
    have hh := Seg_entry h3
    have hl := Seg_le h3
    simp only [Seg] at h7
    obtain ⟨h7a, h7b, h7c, h7d, h7e, h7f, h7g⟩ := h7
    generalize b0 + foot L0 = n0 at *
    simp only [sizeof_Header_eq, NULL_eq] at *
    have hb : h.brk - 32 - s = n0 + 32 + c.2 := by omega
    have hs := sbrk_release (h := h) (s := s) (by omega) h2
    have hc : shrink_heap h =
        set_next { h with brk := n0 + 32 + c.2, heap_tail := n0 } n0 0 := by
      unfold shrink_heap node_unlink
      have e1 : ¬ h.heap_tail = 0 := by omega
      have e2 : ¬ h.heap_head = n0 + 32 + c.2 := by omega
      simp [e1, e2, ← h7e, h7c, h7d, hs, hb]
    rw [hc]
    refine ⟨h1, by simp; omega, p1, ?_, ?_, ?_, ?_, ?_⟩
    · refine Seg_congr (fun y _ hy => ?_) h3
      simp only [set_next_mem]
      split_ifs <;> first | rfl | (exfalso; omega)
    · simpa using h4
    · simpa using h5
    · simpa using h6
    · simp [Seg]

/-- Growing the heap by one used block, on the represented list. -/
theorem Rep_expand {b0 : Nat} {h : Heap} {L : List (Bool × Nat)} {size : Int}
    (hr : Rep b0 h L) (hroom : h.brk + sizeof_Header + to_size_t size < WORD)
    (hinc : sizeof_Header + to_size_t size < INTPTR_MIN_WORD) :
    (expand_heap size h).1 = h.brk ∧
      Rep b0 (expand_heap size h).2 (L ++ [(true, to_size_t size)]) := by
  generalize hsz : to_size_t size = sz at *
  simp only [sizeof_Header_eq] at hroom hinc
  have ha : add64 h.brk (add64 32 sz) = h.brk + 32 + sz := by
    have e0 : add64 32 sz = 32 + sz := add64_small (by omega)
    rw [e0, add64_small (by omega)]; omega
  have hs : sbrk (add64 32 sz) h = (h.brk, { h with brk := h.brk + 32 + sz }) := by
    rw [sbrk_grow (by rw [add64_small (by omega)]; exact hinc), ha]
  refine ⟨by unfold expand_heap; simp [hsz, hs], ?_⟩
  rcases List.eq_nil_or_concat L with rfl | ⟨L0, c, rfl⟩
  · simp only [Rep, List.nil_append, Seg, NULL_eq, sizeof_Header_eq] at hr ⊢
    obtain ⟨h1, h2, ⟨h3, h4, h5⟩, h6⟩ := hr
    obtain ⟨h6, h7⟩ := h6 trivial
    have hb : h.brk = b0 := h5.symm
    rw [hb] at ha hroom
    have hc : (expand_heap size h).2 =
        { set_size (set_used { h with brk := b0 + 32 + sz } b0 true) b0 sz with
          heap_head := b0, heap_tail := b0 } := by
      unfold expand_heap node_link
      have e1 : ¬ b0 = 0 := by omega
      rw [hb] at hs
      simp [e1, ← h3, hs, hb, hsz]
    rw [hc]
    simp [h6, h7, hroom, h1]
  · rw [List.concat_eq_append] at hr ⊢
    rw [List.append_assoc, List.singleton_append, Rep_split]
    rw [show L0 ++ [c] = L0 ++ c :: [] from rfl, Rep_split] at hr
    obtain ⟨h1, h2, p1, h3, h4, h5, h6, h7⟩ := hr
    have hl := Seg_le h3
    simp only [Seg] at h7
    obtain ⟨h7a, h7b, h7c⟩ := h7
    generalize b0 + foot L0 = n0 at *
    simp only [sizeof_Header_eq, NULL_eq] at *
    have hc : (expand_heap size h).2 =
        { set_next (set_next (set_prev (set_size (set_used { h with brk := h.brk + 32 + sz }
            h.brk true) h.brk sz) h.brk n0) n0 h.brk) h.brk 0 with heap_tail := h.brk } := by
      unfold expand_heap node_link
      have e1 : ¬ h.brk = 0 := by omega
      have e2 : ¬ n0 = 0 := by omega
      have e3 : ¬ n0 = h.brk := by omega
      simp [e1, e2, e3, ← h7a, hs, hsz, h7b]
    rw [hc]
    have e3 : ¬ n0 = h.brk := by omega
    refine ⟨h1, by simp; omega, p1, ?_, ?_, ?_, ?_, ?_⟩
    · refine Seg_congr (fun y _ hy => ?_) h3
      simp only [set_next_mem, set_prev_mem, set_size_mem, set_used_mem]
      split_ifs <;> first | rfl | (exfalso; omega)
    · simpa [e3] using h4
    · simpa [e3] using h5
    · simpa [e3] using h6
    · have e4 : ¬ h.brk = n0 := fun e => e3 e.symm
      simp [Seg, e3, e4, h7c]

theorem Seg_ptr {m : Nat → Header} {L : List (Bool × Nat)} {p a x p' a' x' : Nat}
    (hs : Seg m p a x L p' a' x') : a = if L = [] then a' else x := by
  cases L with
  | nil => simp only [Seg] at hs; simp [hs.2.1]
  | cons b rest => simp only [Seg] at hs; simp [hs.1]

theorem foot_ge (L : List (Bool × Nat)) : 32 * L.length ≤ foot L := by
  induction L with
  | nil => simp [foot]
  | cons b rest ih => simp [foot]; omega

/-- The scan passes over blocks that are used or too small. -/
theorem findFreeBlock_loop_skip {b0 : Nat} {h : Heap} {size : Int} (M : List (Bool × Nat)) :
    ∀ (L1 L2 : List (Bool × Nat)) (k : Nat), Rep b0 h (L1 ++ M ++ L2) →
      (∀ b ∈ M, ¬ (b.1 = false ∧ to_size_t size ≤ b.2)) →
      findFreeBlock_loop size (M.length + k) (if M ++ L2 = [] then NULL else b0 + foot L1) h =
        findFreeBlock_loop size k (if L2 = [] then NULL else b0 + foot (L1 ++ M)) h := by
  induction M with
  | nil => intro L1 L2 k _ _; simp
  | cons b rest ih =>
    intro L1 L2 k hr hM
    have hr2 := hr
    rw [List.append_assoc, List.cons_append, Rep_split] at hr2
    obtain ⟨h1, h2, p1, h3, h4, h5, h6, h7⟩ := hr2
    have hp := Seg_ptr h7
    have hM1 := hM b (List.mem_cons_self _ _)
    have hr3 : Rep b0 h ((L1 ++ [b]) ++ rest ++ L2) := by simpa using hr
    have ih2 := ih (L1 ++ [b]) L2 k hr3 (fun x hx => hM x (List.mem_cons_of_mem _ hx))
    have e1 : ¬ b0 + foot L1 = 0 := by omega
    have e2 : foot (L1 ++ [b]) = foot L1 + 32 + b.2 := by simp [foot_append, foot]; omega
    have e3 : L1 ++ b :: rest = L1 ++ [b] ++ rest := by simp
    rw [show (b :: rest).length + k = (rest.length + k) + 1 by simp; omega]
    simp only [findFreeBlock_loop, NULL_eq, List.cons_append, reduceCtorEq, if_false, e1,
      h4, h5, hp, sizeof_Header_eq]
    rw [if_neg hM1]
    simp only [NULL_eq, e2, e3, ← Nat.add_assoc] at ih2 ⊢
    exact ih2

/-- The scan stops at the end of the list. -/
theorem findFreeBlock_loop_null (size : Int) (k : Nat) (h : Heap) :
    findFreeBlock_loop size (k + 1) NULL h = some (NULL, h) := by
  simp [findFreeBlock_loop]

/-- A matched block that is too small to split is handed out whole. -/
theorem findFreeBlock_loop_whole {b0 : Nat} {h : Heap} {size : Int} {L1 R : List (Bool × Nat)}
    {s k : Nat} (hr : Rep b0 h (L1 ++ (false, s) :: R)) (hfit : to_size_t size ≤ s)
    (hno : ¬ add64 (add64 (to_size_t size) sizeof_Header) MINIMUM_ALLOCATION ≤ s) :
    findFreeBlock_loop size (k + 1) (b0 + foot L1) h =
      some (b0 + foot L1, set_used h (b0 + foot L1) true) := by
  rw [Rep_split] at hr
  obtain ⟨h1, h2, p1, h3, h4, h5, h6, h7⟩ := hr
  have e1 : ¬ b0 + foot L1 = 0 := by omega
  simp only [findFreeBlock_loop, NULL_eq, e1, if_false, h4, h5, hfit, and_self, if_true,
    set_used_mem]
  rw [if_neg (by simpa [h5] using hno)]

theorem sub64_small {a b c : Nat} (h1 : b + c ≤ a) (h2 : a < WORD) :
    sub64 (sub64 a b) c = a - b - c := by
  unfold sub64 WORD at *
  omega

/-- A matched block large enough is split: the front part is handed out, the rest
stays in the list as a free block right after it. -/
theorem findFreeBlock_loop_split {b0 : Nat} {h : Heap} {size : Int} {L1 R : List (Bool × Nat)}
    {s k : Nat} (hr : Rep b0 h (L1 ++ (false, s) :: R))
    (hbig : to_size_t size + sizeof_Header + MINIMUM_ALLOCATION ≤ s) :
    ∃ h', findFreeBlock_loop size (k + 1) (b0 + foot L1) h = some (b0 + foot L1, h') ∧
      Rep b0 h' (L1 ++ (true, to_size_t size) ::
        (false, s - to_size_t size - sizeof_Header) :: R) := by
  rw [Rep_split] at hr
  simp only [Rep_split]
  obtain ⟨h1, h2, p1, h3, h4, h5, h6, h7⟩ := hr
  have hle := Seg_le h7
  have hl := Seg_le h3
  generalize hsz : to_size_t size = sz at *
  generalize b0 + foot L1 = n at *
  simp only [sizeof_Header_eq, NULL_eq, MINIMUM_ALLOCATION_eq] at *
  have a1 : add64 (add64 sz 32) 16 = sz + 48 := by
    have e0 : add64 sz 32 = sz + 32 := add64_small (by omega)
    rw [e0, add64_small (by omega)]
  have a2 : add64 n (add64 32 sz) = n + 32 + sz := by
    have e0 : add64 32 sz = 32 + sz := add64_small (by omega)
    rw [e0, add64_small (by omega)]; omega
  have a3 : sub64 (sub64 s sz) 32 = s - sz - 32 := sub64_small (by omega) (by omega)
  have e1 : ¬ n = 0 := by omega
  have e2 : ¬ n + 32 + sz = 0 := by omega
  have e3 : ¬ n + 32 + sz = n := by omega
  have e3' : ¬ n = n + 32 + sz := by omega
  have hfit : sz ≤ s := by omega
  have hb : sz + 48 ≤ s := by omega
  cases R with
  | nil =>
    simp only [Seg] at h7
    obtain ⟨h7a, h7b, h7c⟩ := h7
    refine ⟨set_size { set_next (set_next (set_prev (set_size (set_used (set_used h n true)
      (n + 32 + sz) false) (n + 32 + sz) (s - sz - 32)) (n + 32 + sz) n) n (n + 32 + sz))
      (n + 32 + sz) 0 with heap_tail := n + 32 + sz } n sz, ?_, h1, ?_, p1, ?_, ?_, ?_, ?_, ?_⟩
    · simp [findFreeBlock_loop, PTR_ADD_BYTES, node_link, e1, e2, e3, e3', h4, h5, hfit, hsz,
        a1, a2, a3, hb, h7b]
    · simpa using h2
    · refine Seg_congr (fun y _ hy => ?_) h3
      simp only [set_next_mem, set_prev_mem, set_size_mem, set_used_mem]
      split_ifs <;> first | rfl | (exfalso; omega)
    · simp [e3, e3']
    · simp [e3, e3']
    · simp [e3, e3', h6]
    · simp [Seg, e3, e3']; omega
  | cons c R' =>
    simp only [Seg] at h7
    obtain ⟨h7a, h7b, h7c, h7d, h7e⟩ := h7
    have hle2 := Seg_le h7e
    simp only [sizeof_Header_eq] at hle2
    have e4 : ¬ n + 32 + s = 0 := by omega
    have e5 : ¬ n + 32 + s = n := by omega
    have e6 : ¬ n + 32 + s = n + 32 + sz := by omega
    have e5' : ¬ n = n + 32 + s := by omega
    have e6' : ¬ n + 32 + sz = n + 32 + s := by omega
    refine ⟨set_size (set_next (set_prev (set_prev (set_next (set_size (set_used
      (set_used h n true) (n + 32 + sz) false) (n + 32 + sz) (s - sz - 32)) (n + 32 + sz)
      (n + 32 + s)) (n + 32 + sz) n) (n + 32 + s) (n + 32 + sz)) n (n + 32 + sz)) n sz,
      ?_, h1, ?_, p1, ?_, ?_, ?_, ?_, ?_⟩
    · simp [findFreeBlock_loop, PTR_ADD_BYTES, node_link, e1, e2, e3, e3', h4, h5, hfit, hsz,
        a1, a2, a3, hb, h7a, e4, e5, e6, e5', e6']
    · simpa using h2
    · refine Seg_congr (fun y _ hy => ?_) h3
      simp only [set_next_mem, set_prev_mem, set_size_mem, set_used_mem]
      split_ifs <;> first | rfl | (exfalso; omega)
    · simp [e3, e3', e5', e6']
    · simp [e3, e3', e5', e6']
    · simp [e3, e3', e5', e6', h6]
    · have e7 : n + 32 + sz + 32 + (s - sz - 32) = n + 32 + s := by omega
      simp only [Seg, sizeof_Header_eq, set_next_mem, set_prev_mem, set_size_mem, set_used_mem,
        e3, e3', e5, e5', e6, e6', if_true, if_false, e7, set_size_tail, set_next_tail, set_prev_tail,
        set_used_tail, set_size_brk, set_next_brk, set_prev_brk, set_used_brk]
      refine ⟨trivial, trivial, trivial, trivial, trivial, h7b, h7c, trivial, ?_⟩
      refine Seg_congr (fun y hy _ => ?_) h7e
      simp only [sizeof_Header_eq] at hy
      simp only [set_next_mem, set_prev_mem, set_size_mem, set_used_mem]
      split_ifs <;> first | rfl | (exfalso; omega)

/-! ## Arithmetic of `round_up_size` and of the `int` conversions -/

/-- Clearing the three low bits of a 64-bit value. -/
theorem land_mask (x : Nat) (hx : x < WORD) :
    Nat.land x 18446744073709551608 = x / 8 * 8 := by
  show x &&& 18446744073709551608 = x / 8 * 8
  have h1 : (x &&& 18446744073709551608) % 8 = 0 := by
    have := Nat.and_pow_two_sub_one_eq_mod (x &&& 18446744073709551608) 3
    simp only [Nat.reducePow, Nat.add_one_sub_one, Nat.reduceSub] at this
    have e : (18446744073709551608 &&& 7 : Nat) = 0 := by decide
    rw [← this, Nat.and_assoc, e, Nat.and_zero]
  have h2 : (x &&& 18446744073709551608) / 8 = x / 8 := by
    have e1 : (x &&& 18446744073709551608) / 2 / 2 / 2 =
        x / 2 / 2 / 2 &&& 18446744073709551608 / 2 / 2 / 2 := by
      simp only [Nat.and_div_two]
    have e2 : (18446744073709551608 / 2 / 2 / 2 : Nat) = 2 ^ 61 - 1 := by decide
    rw [e2, Nat.and_pow_two_sub_one_eq_mod] at e1
    have e3 : (2 : Nat) ^ 61 = 2305843009213693952 := by decide
    rw [e3] at e1
    unfold WORD at hx
    omega
  omega

theorem round_up_size_eq (s : Nat) (h1 : 16 ≤ s) (h2 : s + 7 < WORD) :
    round_up_size s = (s + 7) / 8 * 8 := by
  unfold round_up_size
  have e1 : ¬ s = 0 := by omega
  have e2 : ¬ s < MINIMUM_ALLOCATION := by simp; omega
  rw [if_neg e1, if_neg e2]
  have e3 : add64 s (SIZE_MULTIPLE - 1) = s + 7 := add64_small h2
  have e4 : not64 (SIZE_MULTIPLE - 1) = 18446744073709551608 := by decide
  rw [e3, e4]
  exact land_mask _ h2

/-! ## Field values in a well-formed heap -/

theorem Seg_last {m : Nat → Header} {L0 : List (Bool × Nat)} {c : Bool × Nat}
    {p a x p' a' x' : Nat} (hs : Seg m p a x (L0 ++ [c]) p' a' x') : p' = x + foot L0 := by
  rw [Seg_append] at hs
  obtain ⟨p1, a1, _, h2⟩ := hs
  simp only [Seg] at h2
  exact h2.2.2.2.2.1.symm

theorem Seg_last_ge {m : Nat → Header} {L : List (Bool × Nat)} :
    ∀ {p a x p' a' x' : Nat}, Seg m p a x L p' a' x' → L ≠ [] → x ≤ p' := by
  induction L with
  | nil => intro p a x p' a' x' _ hn; exact absurd rfl hn
  | cons b rest ih =>
    intro p a x p' a' x' hs _
    simp only [Seg] at hs
    obtain ⟨_, _, _, _, h5⟩ := hs
    cases rest with
    | nil => simp only [Seg] at h5; omega
    | cons c rest' => have := ih h5 (by simp); omega

/-- The fields of the block that follows the prefix `L1`. -/
theorem Rep_node {b0 : Nat} {h : Heap} {L1 L2 : List (Bool × Nat)} {b : Bool × Nat}
    (hr : Rep b0 h (L1 ++ b :: L2)) :
    (h.mem (b0 + foot L1)).used = b.1 ∧ (h.mem (b0 + foot L1)).size = b.2 ∧
    (h.mem (b0 + foot L1)).next = (if L2 = [] then 0 else b0 + foot L1 + 32 + b.2) ∧
    b0 + foot L1 + 32 + b.2 ≤ h.brk ∧ h.brk < WORD ∧ 0 < b0 ∧
    (h.heap_tail = b0 + foot L1 ↔ L2 = []) ∧ h.heap_head = b0 := by
  rw [Rep_split] at hr
  obtain ⟨h1, h2, p1, h3, h4, h5, h6, h7⟩ := hr
  have hp := Seg_ptr h7
  have hle := Seg_le h7
  have hh := Seg_entry h3
  simp only [NULL_eq, sizeof_Header_eq] at *
  refine ⟨h4, h5, hp, hle, h2, h1.1, ?_, hh⟩
  cases L2 with
  | nil => simp only [Seg] at h7; simp [h7.1]
  | cons c rest =>
    have := Seg_last_ge h7 (by simp)
    simp; omega

theorem Rep_prev_nil {b0 : Nat} {h : Heap} {L2 : List (Bool × Nat)} {b : Bool × Nat}
    (hr : Rep b0 h (b :: L2)) : (h.mem b0).prev = 0 := by
  simp only [Rep, Seg] at hr
  exact hr.2.2.1.2.2.2.1

theorem Rep_prev {b0 : Nat} {h : Heap} {L0 L2 : List (Bool × Nat)} {b c : Bool × Nat}
    (hr : Rep b0 h (L0 ++ c :: b :: L2)) :
    (h.mem (b0 + foot L0 + 32 + c.2)).prev = b0 + foot L0 := by
  rw [Rep_split] at hr
  obtain ⟨h1, h2, p1, h3, h4, h5, h6, h7⟩ := hr
  simp only [Seg, sizeof_Header_eq] at h7
  exact h7.2.2.2.1

/-- Coalescing a free block with its neighbours, on the represented list. -/
theorem Rep_coalesce_neighbors {b0 : Nat} {h : Heap} {L1 L2 : List (Bool × Nat)} {s : Nat}
    (hr : Rep b0 h (L1 ++ (false, s) :: L2)) :
    (node_coalesce_with_neighbors (b0 + foot L1) h).1 = b0 + foot (coal L1 s L2).1 ∧
    Rep b0 (node_coalesce_with_neighbors (b0 + foot L1) h).2
      ((coal L1 s L2).1 ++ (false, (coal L1 s L2).2.1) :: (coal L1 s L2).2.2) := by
  obtain ⟨f1, f2, f3, f4, f5, f6, f7, f8⟩ := Rep_node hr
  rcases List.eq_nil_or_concat L1 with rfl | ⟨L0, ⟨u0, s0⟩, rfl⟩
  · have hp := Rep_prev_nil hr
    simp only [foot, Nat.add_zero, List.nil_append] at *
    cases L2 with
    | nil =>
      simp only [if_true] at f3
      simp [node_coalesce_with_neighbors, hp, f3, coal, foot, hr]
    | cons c L3 =>
      obtain ⟨u2, s2⟩ := c
      have hr2 : Rep b0 h ([(false, s)] ++ (u2, s2) :: L3) := hr
      obtain ⟨g1, _⟩ := Rep_node hr2
      simp only [foot, sizeof_Header_eq, Nat.add_zero, ← Nat.add_assoc] at g1
      simp only [reduceCtorEq, if_false] at f3
      have e1 : ¬ b0 + 32 + s = 0 := by omega
      cases u2 with
      | false =>
        have hr0 : Rep b0 h ([] ++ (false, s) :: (false, s2) :: L3) := hr
        have hc := Rep_coalesce_next hr0
        simp only [foot, Nat.add_zero, List.nil_append, sizeof_Header_eq] at hc
        simp [node_coalesce_with_neighbors, hp, f3, e1, g1, coal, foot, hc]
      | true =>
        simp [node_coalesce_with_neighbors, hp, f3, e1, g1, coal, foot, hr]
  · rw [List.concat_eq_append] at *
    have e0 : foot (L0 ++ [(u0, s0)]) = foot L0 + 32 + s0 := by
      simp [foot_append, foot]; omega
    have hr1 : Rep b0 h (L0 ++ (u0, s0) :: (false, s) :: L2) := by simpa using hr
    have hp := Rep_prev hr1
    obtain ⟨g1, g2, g3, g4, _⟩ := Rep_node hr1
    simp only [e0, ← Nat.add_assoc] at f1 f2 f3 f4 f7 hp g3 g4 ⊢
    have e1 : ¬ b0 + foot L0 = 0 := by omega
    have hrev : (L0 ++ [(u0, s0)]).reverse = (u0, s0) :: L0.reverse := by simp
    cases L2 with
    | nil =>
      simp only [if_true] at f3
      cases u0 with
      | false =>
        have hc := Rep_coalesce_next hr1
        simp only [sizeof_Header_eq] at hc
        simp [node_coalesce_with_neighbors, hp, f3, e1, g1, coal, hc]
      | true =>
        simp [node_coalesce_with_neighbors, hp, f3, e1, g1, coal, e0, ← Nat.add_assoc, hr1]
    | cons c L3 =>
      obtain ⟨u2, s2⟩ := c
      have hr2 : Rep b0 h ((L0 ++ [(u0, s0), (false, s)]) ++ (u2, s2) :: L3) := by
        simpa using hr
      obtain ⟨k1, _⟩ := Rep_node hr2
      have e2 : foot (L0 ++ [(u0, s0), (false, s)]) = foot L0 + 32 + s0 + 32 + s := by
        simp [foot_append, foot]; omega
      simp only [e2, ← Nat.add_assoc] at k1
      simp only [reduceCtorEq, if_false] at f3
      have e3 : ¬ b0 + foot L0 + 32 + s0 + 32 + s = 0 := by omega
      cases u2 with
      | false =>
        cases u0 with
        | false =>
          have hc := Rep_coalesce_next (Rep_coalesce_next hr1)
          have e4 : s0 + s + 32 + s2 + 32 = s0 + (s + s2 + 32) + 32 := by omega
          simp only [sizeof_Header_eq, e4] at hc
          simp [node_coalesce_with_neighbors, hp, f3, e1, e3, g1, k1, coal, hc]
        | true =>
          have hc := Rep_coalesce_next hr
          simp only [e0, ← Nat.add_assoc, sizeof_Header_eq, List.append_assoc,
            List.singleton_append] at hc
          simp [node_coalesce_with_neighbors, hp, f3, e1, e3, g1, k1, coal, hc, e0,
            ← Nat.add_assoc]
      | true =>
        cases u0 with
        | false =>
          have hc := Rep_coalesce_next hr1
          simp only [sizeof_Header_eq] at hc
          simp [node_coalesce_with_neighbors, hp, f3, e1, e3, g1, k1, coal, hc]
        | true =>
          simp [node_coalesce_with_neighbors, hp, f3, e1, e3, g1, k1, coal, e0,
            ← Nat.add_assoc, hr1]

theorem Rep_brk {b0 : Nat} {h : Heap} {L : List (Bool × Nat)} (hr : Rep b0 h L) :
    h.brk = b0 + foot L := Seg_end hr.2.2.1

theorem Rep_nil_iff {b0 : Nat} {h : Heap} :
    Rep b0 h [] ↔ (0 < b0 ∧ h.start_brk ≤ b0) ∧ b0 < WORD ∧ h.heap_head = 0 ∧
      h.heap_tail = 0 ∧ h.brk = b0 ∧ (h.mem b0).prev = 0 ∧ (h.mem b0).next = 0 := by
  simp only [Rep, Seg, NULL_eq, true_implies]
  constructor
  · rintro ⟨h1, h2, ⟨h3, h4, h5⟩, h6, h7⟩
    exact ⟨h1, by omega, h4, h3.symm, h5.symm, h6, h7⟩
  · rintro ⟨h1, h2, h3, h4, h5, h6, h7⟩
    exact ⟨h1, by omega, ⟨h4.symm, h3, h5.symm⟩, h6, h7⟩

theorem sub64_add {n : Nat} (h : n + 32 < WORD) : sub64 (n + 32) 32 = n := by
  unfold sub64 WORD at *; omega

/-- Releasing the block that follows the prefix `L1`, on the represented list. -/
theorem Rep_my_free {b0 : Nat} {h : Heap} {L1 L2 : List (Bool × Nat)} {u : Bool} {s : Nat}
    (hr : Rep b0 h (L1 ++ (u, s) :: L2)) :
    Rep b0 (my_free (b0 + foot L1 + sizeof_Header) h) (free_blocks L1 s L2) := by
  obtain ⟨_, _, _, f4, f5, f6, _, _⟩ := Rep_node hr
  have hr1 := Rep_set_used (v := false) hr
  obtain ⟨c1, c2⟩ := Rep_coalesce_neighbors hr1
  obtain ⟨_, _, _, _, _, _, t7, _⟩ := Rep_node c2
  have e1 : ¬ b0 + foot L1 + 32 = 0 := by omega
  have e2 : sub64 (b0 + foot L1 + 32) 32 = b0 + foot L1 := sub64_add (by omega)
  have hm : my_free (b0 + foot L1 + sizeof_Header) h =
      if (node_coalesce_with_neighbors (b0 + foot L1) (set_used h (b0 + foot L1) false)).1 =
          (node_coalesce_with_neighbors (b0 + foot L1)
            (set_used h (b0 + foot L1) false)).2.heap_tail
      then shrink_heap (node_coalesce_with_neighbors (b0 + foot L1)
            (set_used h (b0 + foot L1) false)).2
      else (node_coalesce_with_neighbors (b0 + foot L1) (set_used h (b0 + foot L1) false)).2 := by
    unfold my_free
    rw [sizeof_Header_eq, NULL_eq, if_neg e1, e2]
  rw [hm, c1]
  unfold free_blocks
  by_cases hS : (coal L1 s L2).2.2 = []
  · have e3 : b0 + foot (coal L1 s L2).1 =
        (node_coalesce_with_neighbors (b0 + foot L1) (set_used h (b0 + foot L1) false)).2.heap_tail :=
      (t7.2 hS).symm
    rw [if_pos e3, if_pos hS]
    rw [hS] at c2
    exact Rep_shrink c2
  · have e3 : ¬ b0 + foot (coal L1 s L2).1 =
        (node_coalesce_with_neighbors (b0 + foot L1) (set_used h (b0 + foot L1) false)).2.heap_tail :=
      fun e => hS (t7.1 e.symm)
    rw [if_neg e3, if_neg hS]
    exact c2

/-! ## `findFreeBlock` and `my_malloc` on a well-formed heap -/

theorem Rep_fuel {b0 : Nat} {h : Heap} {M L2 : List (Bool × Nat)} (hr : Rep b0 h (M ++ L2)) :
    ∃ k, h.brk + 1 = M.length + (k + 1) := by
  have h1 := Rep_brk hr
  have h2 := foot_ge M
  rw [foot_append] at h1
  exact ⟨h.brk - M.length, by omega⟩

/-- No free block is large enough: the scan returns `NULL` and changes nothing. -/
theorem findFreeBlock_none {b0 : Nat} {h : Heap} {size : Int} {L : List (Bool × Nat)}
    (hr : Rep b0 h L) (hno : ∀ b ∈ L, ¬ (b.1 = false ∧ to_size_t size ≤ b.2)) :
    findFreeBlock size h = some (NULL, h) := by
  have hr' : Rep b0 h ([] ++ L ++ []) := by simpa using hr
  have hr0 : Rep b0 h (L ++ []) := by simpa using hr
  obtain ⟨k, hk⟩ := Rep_fuel hr0
  have hh : h.heap_head = if L ++ [] = [] then NULL else b0 + foot [] := by
    have := Seg_ptr hr.2.2.1
    simpa [foot] using this
  unfold findFreeBlock
  rw [hk, hh, findFreeBlock_loop_skip L [] [] (k + 1) hr' hno]
  simp [findFreeBlock_loop]

theorem findFreeBlock_at {b0 : Nat} {h : Heap} {size : Int} {M R : List (Bool × Nat)}
    {t : Nat} (hr : Rep b0 h (M ++ (false, t) :: R))
    (hno : ∀ b ∈ M, ¬ (b.1 = false ∧ to_size_t size ≤ b.2)) :
    ∃ k, findFreeBlock size h = findFreeBlock_loop size (k + 1) (b0 + foot M) h := by
  have hr' : Rep b0 h ([] ++ M ++ (false, t) :: R) := by simpa using hr
  obtain ⟨k, hk⟩ := Rep_fuel hr
  have hh : h.heap_head = if M ++ (false, t) :: R = [] then NULL else b0 + foot [] := by
    have := (Rep_node hr).2.2.2.2.2.2.2
    simpa [foot] using this
  refine ⟨k, ?_⟩
  unfold findFreeBlock
  rw [hk, hh, findFreeBlock_loop_skip M [] ((false, t) :: R) (k + 1) hr' hno]
  simp

/-- Growth path of `my_malloc`. -/
theorem my_malloc_expand {b0 : Nat} {h : Heap} {s : Nat} {L : List (Bool × Nat)}
    (hr : Rep b0 h L) (hs : 0 < s) (hno : ∀ b ∈ L, ¬ (b.1 = false ∧ eff s ≤ b.2))
    (hroom : h.brk + sizeof_Header + eff s < WORD)
    (hinc : sizeof_Header + eff s < INTPTR_MIN_WORD) :
    ∃ h', my_malloc s h = some (h.brk + sizeof_Header, h') ∧
      Rep b0 h' (L ++ [(true, eff s)]) ∧ h'.brk = h.brk + sizeof_Header + eff s := by
  have hno' : ∀ b ∈ L, ¬ (b.1 = false ∧ to_size_t (to_int (round_up_size s)) ≤ b.2) := hno
  have hroom' : h.brk + sizeof_Header + to_size_t (to_int (round_up_size s)) < WORD := hroom
  have hinc' : sizeof_Header + to_size_t (to_int (round_up_size s)) < INTPTR_MIN_WORD := hinc
  have hf := findFreeBlock_none hr hno'
  obtain ⟨x1, x2⟩ := Rep_expand hr hroom' hinc'
  refine ⟨(expand_heap (to_int (round_up_size s)) h).2, ?_, x2, ?_⟩
  · have e0 : ¬ s = 0 := by omega
    simp only [my_malloc, e0, if_false, hf, NULL_eq, if_true, x1, sizeof_Header_eq]
    rw [add64_small (by simp only [sizeof_Header_eq] at hroom; omega)]
  · have := Rep_brk x2
    have h0 := Rep_brk hr
    rw [foot_append] at this
    simp only [foot, sizeof_Header_eq, eff] at *
    omega

/-- Reuse of a free block that is too small to split. -/
theorem my_malloc_whole {b0 : Nat} {h : Heap} {s t : Nat} {M R : List (Bool × Nat)}
    (hr : Rep b0 h (M ++ (false, t) :: R)) (hs : 0 < s)
    (hno : ∀ b ∈ M, ¬ (b.1 = false ∧ eff s ≤ b.2)) (hfit : eff s ≤ t)
    (hsmall : ¬ add64 (add64 (eff s) sizeof_Header) MINIMUM_ALLOCATION ≤ t) :
    my_malloc s h = some (b0 + foot M + sizeof_Header, set_used h (b0 + foot M) true) := by
  have hno' : ∀ b ∈ M, ¬ (b.1 = false ∧ to_size_t (to_int (round_up_size s)) ≤ b.2) := hno
  have hfit' : to_size_t (to_int (round_up_size s)) ≤ t := hfit
  have hsmall' : ¬ add64 (add64 (to_size_t (to_int (round_up_size s))) sizeof_Header)
      MINIMUM_ALLOCATION ≤ t := hsmall
  obtain ⟨k, hk⟩ := findFreeBlock_at hr hno'
  rw [findFreeBlock_loop_whole hr hfit' hsmall'] at hk
  obtain ⟨_, _, _, f4, f5, f6, _, _⟩ := Rep_node hr
  have e0 : ¬ s = 0 := by omega
  have e1 : ¬ b0 + foot M = 0 := by omega
  simp only [my_malloc, e0, if_false, hk, NULL_eq, e1, sizeof_Header_eq]
  rw [add64_small (by omega)]

/-- Reuse of a free block that is split. -/
theorem my_malloc_split {b0 : Nat} {h : Heap} {s t : Nat} {M R : List (Bool × Nat)}
    (hr : Rep b0 h (M ++ (false, t) :: R)) (hs : 0 < s)
    (hno : ∀ b ∈ M, ¬ (b.1 = false ∧ eff s ≤ b.2))
    (hbig : eff s + sizeof_Header + MINIMUM_ALLOCATION ≤ t) :
    ∃ h', my_malloc s h = some (b0 + foot M + sizeof_Header, h') ∧
      Rep b0 h' (M ++ (true, eff s) :: (false, t - eff s - sizeof_Header) :: R) := by
  have hno' : ∀ b ∈ M, ¬ (b.1 = false ∧ to_size_t (to_int (round_up_size s)) ≤ b.2) := hno
  have hbig' : to_size_t (to_int (round_up_size s)) + sizeof_Header + MINIMUM_ALLOCATION ≤ t :=
    hbig
  obtain ⟨k, hk⟩ := findFreeBlock_at hr hno'
  obtain ⟨h', hl, hr'⟩ := findFreeBlock_loop_split (k := k) hr hbig'
  rw [hl] at hk
  obtain ⟨_, _, _, f4, f5, f6, _, _⟩ := Rep_node hr
  refine ⟨h', ?_, hr'⟩
  have e0 : ¬ s = 0 := by omega
  have e1 : ¬ b0 + foot M = 0 := by omega
  simp only [my_malloc, e0, if_false, hk, NULL_eq, e1, sizeof_Header_eq]
  rw [add64_small (by omega)]

/-! ## Requests that fit the `int` parameter -/

/-- A header and a size that fits an `int` make an increment for `sbrk`. -/
theorem increment_fits {e : Nat} (he : e ≤ 2147483640) :
    sizeof_Header + e < INTPTR_MIN_WORD := by
  unfold sizeof_Header INTPTR_MIN_WORD; omega

theorem round_up_size_fits {s : Nat} (h0 : 0 < s) (h1 : s ≤ 2147483640) :
    round_up_size s = (if s < 16 then 16 else (s + 7) / 8 * 8) := by
  by_cases h : s < 16
  · rw [if_pos h]
    unfold round_up_size
    rw [if_neg (by omega), if_pos (by simpa using h)]
    rfl
  · rw [if_neg h]
    exact round_up_size_eq s (by omega) (by unfold WORD; omega)

/-- For a request of at most `INT_MAX - 7` bytes the `int` parameter carries the
rounded size unchanged: a multiple of 8, at least 16 and at least the request. -/
theorem eff_fits {s : Nat} (h0 : 0 < s) (h1 : s ≤ 2147483640) :
    eff s = round_up_size s ∧ s ≤ eff s ∧ 16 ≤ eff s ∧ eff s % 8 = 0 ∧
    eff s ≤ 2147483640 ∧ eff s < s + 16 := by
  have hr := round_up_size_fits h0 h1
  have hb : round_up_size s ≤ 2147483640 ∧ s ≤ round_up_size s ∧ 16 ≤ round_up_size s ∧
      round_up_size s % 8 = 0 ∧ round_up_size s < s + 16 := by
    rw [hr]; split_ifs <;> omega
  have he : eff s = round_up_size s := by
    unfold eff to_int to_size_t WORD
    generalize round_up_size s = r at *
    have e1 : r % 4294967296 = r := Nat.mod_eq_of_lt (by omega)
    rw [e1, if_pos (by omega)]
    omega
  rw [he]
  omega

theorem first_fit_cases (sz : Nat) (L : List (Bool × Nat)) :
    (∀ b ∈ L, ¬ (b.1 = false ∧ sz ≤ b.2)) ∨
    ∃ M t R, L = M ++ (false, t) :: R ∧ (∀ b ∈ M, ¬ (b.1 = false ∧ sz ≤ b.2)) ∧ sz ≤ t := by
  induction L with
  | nil => left; simp
  | cons b rest ih =>
    by_cases hb : b.1 = false ∧ sz ≤ b.2
    · right
      refine ⟨[], b.2, rest, ?_, by simp, hb.2⟩
      obtain ⟨u, t⟩ := b
      simp only at hb
      simp [hb.1]
    · rcases ih with ih | ⟨M, t, R, h1, h2, h3⟩
      · left
        intro x hx
        rcases List.mem_cons.1 hx with rfl | hx
        · exact hb
        · exact ih x hx
      · right
        refine ⟨b :: M, t, R, by simp [h1], ?_, h3⟩
        intro x hx
        rcases List.mem_cons.1 hx with rfl | hx
        · exact hb
        · exact h2 x hx

/-- On a well-formed heap, a request of `0 < s ≤ INT_MAX - 7` bytes for which the
address space has room returns the payload of a block that is in the list, used, and
of size at least `s`; the new heap is well-formed. -/
theorem my_malloc_fits {b0 : Nat} {h : Heap} {L : List (Bool × Nat)} {s : Nat}
    (hr : Rep b0 h L) (h0 : 0 < s) (h1 : s ≤ 2147483640)
    (hroom : h.brk + sizeof_Header + eff s < WORD) :
    ∃ p h' L1 t L2, my_malloc s h = some (p, h') ∧ Rep b0 h' (L1 ++ (true, t) :: L2) ∧
      p = b0 + foot L1 + sizeof_Header ∧ s ≤ t := by
  obtain ⟨e1, e2, e3, e4, e5, e6⟩ := eff_fits h0 h1
  rcases first_fit_cases (eff s) L with hno | ⟨M, t, R, rfl, hno, hfit⟩
  · obtain ⟨h', hm, hr', hb⟩ := my_malloc_expand hr h0 hno hroom (increment_fits e5)
    refine ⟨_, h', L, eff s, [], hm, hr', ?_, e2⟩
    rw [Rep_brk hr]
  · by_cases hbig : eff s + sizeof_Header + MINIMUM_ALLOCATION ≤ t
    · obtain ⟨h', hm, hr'⟩ := my_malloc_split hr h0 hno hbig
      exact ⟨_, h', M, eff s, _, hm, hr', rfl, e2⟩
    · have hsmall : ¬ add64 (add64 (eff s) sizeof_Header) MINIMUM_ALLOCATION ≤ t := by
        simp only [sizeof_Header_eq, MINIMUM_ALLOCATION_eq] at hbig ⊢
        have a1 : add64 (eff s) 32 = eff s + 32 := add64_small (by unfold WORD; omega)
        rw [a1, add64_small (by unfold WORD; omega)]
        omega
      have hm := my_malloc_whole hr h0 hno hfit hsmall
      exact ⟨_, _, M, t, R, hm, Rep_set_used hr, rfl, by omega⟩

/-! ## The list invariants under the three allocation paths and under release -/

theorem getLast?_append_cons (L : List (Bool × Nat)) (b : Bool × Nat) (R : List (Bool × Nat)) :
    (L ++ b :: R).getLast? = (b :: R).getLast? := by
  cases h : (b :: R).getLast? with
  | none => simp at h
  | some x => simp [List.getLast?_append, h]

theorem good_expand {L : List (Bool × Nat)} {e : Nat}
    (h1 : no_adjacent_free L) (h3 : sizes_rounded L) (he : 16 ≤ e) (he8 : e % 8 = 0) :
    no_adjacent_free (L ++ [(true, e)]) ∧ tail_used (L ++ [(true, e)]) ∧
      sizes_rounded (L ++ [(true, e)]) := by
  refine ⟨?_, ?_, ?_⟩
  · unfold no_adjacent_free at *
    rw [List.chain'_append]
    exact ⟨h1, List.chain'_singleton _, by simp⟩
  · unfold tail_used; simp
  · intro b hb
    rcases List.mem_append.1 hb with hb | hb
    · exact h3 b hb
    · simp at hb; subst hb; simp; omega

theorem good_whole {M R : List (Bool × Nat)} {t : Nat}
    (h1 : no_adjacent_free (M ++ (false, t) :: R)) (h2 : tail_used (M ++ (false, t) :: R))
    (h3 : sizes_rounded (M ++ (false, t) :: R)) :
    no_adjacent_free (M ++ (true, t) :: R) ∧ tail_used (M ++ (true, t) :: R) ∧
      sizes_rounded (M ++ (true, t) :: R) := by
  refine ⟨?_, ?_, ?_⟩
  · unfold no_adjacent_free at *
    rw [List.chain'_append, List.chain'_cons'] at h1 ⊢
    obtain ⟨a1, ⟨a2, a3⟩, a4⟩ := h1
    exact ⟨a1, ⟨fun y _ => Or.inl rfl, a3⟩, fun x _ y hy => by simp at hy; subst hy; simp⟩
  · unfold tail_used at *
    rw [getLast?_append_cons] at h2 ⊢
    cases R with
    | nil => simp
    | cons c R' => simpa [List.getLast?_cons_cons] using h2
  · intro b hb
    simp only [List.mem_append, List.mem_cons] at hb
    rcases hb with hb | rfl | hb
    · exact h3 b (by simp [hb])
    · exact h3 (false, t) (by simp)
    · exact h3 b (by simp [hb])

theorem good_split {M R : List (Bool × Nat)} {t e : Nat}
    (h1 : no_adjacent_free (M ++ (false, t) :: R)) (h2 : tail_used (M ++ (false, t) :: R))
    (h3 : sizes_rounded (M ++ (false, t) :: R)) (he : 16 ≤ e) (he8 : e % 8 = 0)
    (hbig : e + 32 + 16 ≤ t) :
    no_adjacent_free (M ++ (true, e) :: (false, t - e - 32) :: R) ∧
      tail_used (M ++ (true, e) :: (false, t - e - 32) :: R) ∧
      sizes_rounded (M ++ (true, e) :: (false, t - e - 32) :: R) := by
  have ht := h3 (false, t) (by simp)
  simp only [MINIMUM_ALLOCATION_eq, SIZE_MULTIPLE_eq] at ht
  refine ⟨?_, ?_, ?_⟩
  · unfold no_adjacent_free at *
    rw [List.chain'_append, List.chain'_cons'] at h1
    obtain ⟨a1, ⟨a2, a3⟩, a4⟩ := h1
    rw [List.chain'_append, List.chain'_cons', List.chain'_cons']
    refine ⟨a1, ⟨fun y _ => Or.inl rfl, fun y hy => ?_, a3⟩,
      fun x _ y hy => by simp at hy; subst hy; simp⟩
    have := a2 y hy
    simpa using this
  · unfold tail_used at *
    rw [getLast?_append_cons] at h2 ⊢
    cases R with
    | nil => simp at h2
    | cons c R' => simpa [List.getLast?_cons_cons] using h2
  · intro b hb
    simp only [List.mem_append, List.mem_cons] at hb
    simp only [MINIMUM_ALLOCATION_eq, SIZE_MULTIPLE_eq]
    rcases hb with hb | rfl | rfl | hb
    · exact h3 b (by simp [hb])
    · simp; omega
    · simp; omega
    · exact h3 b (by simp [hb])

theorem good_free {L1 L2 : List (Bool × Nat)} {s : Nat}
    (h1 : no_adjacent_free (L1 ++ (true, s) :: L2)) (h2 : tail_used (L1 ++ (true, s) :: L2))
    (h3 : sizes_rounded (L1 ++ (true, s) :: L2)) :
    no_adjacent_free (free_blocks L1 s L2) ∧ tail_used (free_blocks L1 s L2) ∧
      sizes_rounded (free_blocks L1 s L2) := by
  rcases List.eq_nil_or_concat L1 with rfl | ⟨L0, ⟨u0, s0⟩, rfl⟩
  · cases L2 with
    | nil => simp [free_blocks, coal, no_adjacent_free, tail_used, sizes_rounded]
    | cons c L3 =>
      obtain ⟨u2, s2⟩ := c
      cases u2 with
      | false =>
        cases L3 with
        | nil => simp [tail_used] at h2
        | cons d L4 =>
          simp [free_blocks, coal, no_adjacent_free, tail_used, sizes_rounded,
            List.chain'_cons', List.getLast?_cons_cons] at *
          exact ⟨h1, h2, by omega, h3.2.2⟩
      | true =>
        simp [free_blocks, coal, no_adjacent_free, tail_used, sizes_rounded,
          List.chain'_cons', List.getLast?_cons_cons] at *
        exact ⟨h1, h2, h3⟩
  · rw [List.concat_eq_append] at *
    cases L2 with
    | nil =>
      cases u0 with
      | false =>
        simp [free_blocks, coal, no_adjacent_free, tail_used, sizes_rounded,
          List.chain'_cons', List.chain'_append, List.getLast?_append] at *
        exact ⟨h1.1, h1.2, fun b hb => h3.1 b (by tauto), fun b hb => h3.2 b (by tauto)⟩
      | true =>
        simp [free_blocks, coal, no_adjacent_free, tail_used, sizes_rounded,
          List.chain'_cons', List.chain'_append, List.getLast?_append] at *
        exact ⟨h1, h3.1, fun b hb => h3.2 b (by tauto)⟩
    | cons c L3 =>
      obtain ⟨u2, s2⟩ := c
      cases u2 with
      | false =>
        cases L3 with
        | nil => simp [tail_used, List.getLast?_append] at h2
        | cons d L4 =>
          cases u0 with
          | false =>
            simp [free_blocks, coal, no_adjacent_free, tail_used, sizes_rounded,
              List.chain'_cons', List.chain'_append, List.getLast?_append,
              List.getLast?_cons_cons] at *
            refine ⟨by tauto, h2, ?_, ?_⟩
            all_goals
              intro b hb
              rcases hb with hb | hb | hb | hb
              all_goals first
                | (refine h3.1 b ?_; tauto)
                | (refine h3.2 b ?_; tauto)
                | (subst hb
                   have q : 16 ≤ s ∧ s % 8 = 0 := by refine h3.2 s ?_; tauto
                   try (have q0 : 16 ≤ s0 ∧ s0 % 8 = 0 := by refine h3.1 s0 ?_; tauto)
                   try (have q2 : 16 ≤ s2 ∧ s2 % 8 = 0 := by refine h3.1 s2 ?_; tauto)
                   omega)
          | true =>
            simp [free_blocks, coal, no_adjacent_free, tail_used, sizes_rounded,
              List.chain'_cons', List.chain'_append, List.getLast?_append,
              List.getLast?_cons_cons] at *
            refine ⟨by tauto, h2, ?_, ?_⟩
            all_goals
              intro b hb
              rcases hb with hb | hb | hb | hb
              all_goals first
                | (refine h3.1 b ?_; tauto)
                | (refine h3.2 b ?_; tauto)
                | (subst hb
                   have q : 16 ≤ s ∧ s % 8 = 0 := by refine h3.2 s ?_; tauto
                   try (have q0 : 16 ≤ s0 ∧ s0 % 8 = 0 := by refine h3.1 s0 ?_; tauto)
                   try (have q2 : 16 ≤ s2 ∧ s2 % 8 = 0 := by refine h3.1 s2 ?_; tauto)
                   omega)
      | true =>
        cases u0 with
        | false =>
          simp [free_blocks, coal, no_adjacent_free, tail_used, sizes_rounded,
            List.chain'_cons', List.chain'_append, List.getLast?_append,
            List.getLast?_cons_cons] at *
          refine ⟨by tauto, h2, ?_, ?_⟩
          all_goals
            intro b hb
            rcases hb with hb | hb | hb | hb
            all_goals first
              | (refine h3.1 b ?_; tauto)
              | (refine h3.2 b ?_; tauto)
              | (subst hb
                 have q : 16 ≤ s ∧ s % 8 = 0 := by refine h3.2 s ?_; tauto
                 try (have q0 : 16 ≤ s0 ∧ s0 % 8 = 0 := by refine h3.1 s0 ?_; tauto)
                 try (have q2 : 16 ≤ s2 ∧ s2 % 8 = 0 := by refine h3.1 s2 ?_; tauto)
                 omega)
        | true =>
          simp [free_blocks, coal, no_adjacent_free, tail_used, sizes_rounded,
            List.chain'_cons', List.chain'_append, List.getLast?_append,
            List.getLast?_cons_cons] at *
          refine ⟨by tauto, h2, ?_, ?_⟩
          all_goals
            intro b hb
            rcases hb with hb | hb | hb | hb
            all_goals first
              | (refine h3.1 b ?_; tauto)
              | (refine h3.2 b ?_; tauto)

/-! ## Handles of the used blocks -/

theorem handles_append (L1 L2 : List (Bool × Nat)) :
    ∀ x, handles x (L1 ++ L2) = handles x L1 ++ handles (x + foot L1) L2 := by
  induction L1 with
  | nil => intro x; simp [handles, foot]
  | cons b rest ih =>
    intro x
    show handles x (b :: (rest ++ L2)) = _
    simp only [handles, foot, ih]
    rw [show x + sizeof_Header + b.2 + foot rest = x + (sizeof_Header + b.2 + foot rest) by omega]
    split_ifs <;> simp

theorem handles_bounds (L : List (Bool × Nat)) :
    ∀ x q, q ∈ handles x L → x + 32 ≤ q ∧ q ≤ x + foot L := by
  induction L with
  | nil => intro x q hq; simp [handles] at hq
  | cons b rest ih =>
    intro x q hq
    simp only [handles, foot, sizeof_Header_eq] at hq ⊢
    split_ifs at hq
    · rcases List.mem_cons.1 hq with rfl | hq
      · omega
      · have := ih _ _ hq; omega
    · have := ih _ _ hq; omega

theorem mem_handles (L : List (Bool × Nat)) :
    ∀ x q, q ∈ handles x L →
      ∃ L1 s L2, L = L1 ++ (true, s) :: L2 ∧ q = x + foot L1 + sizeof_Header := by
  induction L with
  | nil => intro x q hq; simp [handles] at hq
  | cons b rest ih =>
    intro x q hq
    obtain ⟨u, t⟩ := b
    simp only [handles] at hq
    have step : q ∈ handles (x + sizeof_Header + t) rest →
        ∃ L1 s L2, (u, t) :: rest = L1 ++ (true, s) :: L2 ∧ q = x + foot L1 + sizeof_Header := by
      intro hq'
      obtain ⟨L1, s, L2, h1, h2⟩ := ih _ _ hq'
      refine ⟨(u, t) :: L1, s, L2, by simp [h1], ?_⟩
      simp only [foot, h2]; omega
    split_ifs at hq with hu
    · rcases List.mem_cons.1 hq with rfl | hq
      · simp only at hu
        exact ⟨[], t, rest, by simp [hu], by simp [foot]⟩
      · exact step hq
    · exact step hq

theorem handles_free (x : Nat) (L1 L2 : List (Bool × Nat)) (s : Nat) :
    handles x (free_blocks L1 s L2) =
      handles x L1 ++ handles (x + foot L1 + sizeof_Header + s) L2 := by
  rcases List.eq_nil_or_concat L1 with rfl | ⟨L0, ⟨u0, s0⟩, rfl⟩
  · cases L2 with
    | nil => simp [free_blocks, coal, handles]
    | cons c L3 =>
      obtain ⟨u2, s2⟩ := c
      cases u2 with
      | false =>
        cases L3 with
        | nil => simp [free_blocks, coal, handles]
        | cons d L4 =>
          simp only [free_blocks, coal, handles, foot, List.nil_append, List.reverse_nil,
            reduceCtorEq, if_false, sizeof_Header_eq, Nat.add_zero, Bool.false_eq_true]
          rw [show x + 32 + (s + s2 + 32) = x + 32 + s + 32 + s2 by omega]
      | true => simp [free_blocks, coal, handles, foot]
  · rw [List.concat_eq_append]
    have e0 : foot (L0 ++ [(u0, s0)]) = foot L0 + 32 + s0 := by
      simp [foot_append, foot]; omega
    cases L2 with
    | nil =>
      cases u0 <;> simp [free_blocks, coal, handles, handles_append, foot]
    | cons c L3 =>
      obtain ⟨u2, s2⟩ := c
      cases u2 with
      | false =>
        cases L3 with
        | nil => cases u0 <;> simp [free_blocks, coal, handles, handles_append, foot]
        | cons d L4 =>
          cases u0 with
          | false =>
            simp only [free_blocks, coal, handles, handles_append, foot, List.reverse_append,
              List.reverse_cons, List.reverse_nil, List.nil_append, List.singleton_append,
              List.reverse_reverse, reduceCtorEq, if_false, sizeof_Header_eq, Nat.add_zero,
              Bool.false_eq_true, List.append_nil, e0]
            ring_nf
          | true =>
            simp only [free_blocks, coal, handles, handles_append, foot, List.reverse_append,
              List.reverse_cons, List.reverse_nil, List.nil_append, List.singleton_append,
              reduceCtorEq, if_false, if_true, sizeof_Header_eq, Nat.add_zero,
              Bool.false_eq_true, List.append_assoc, List.cons_append, e0]
            ring_nf
      | true =>
        cases u0 with
        | false =>
          simp only [free_blocks, coal, handles, handles_append, foot, List.reverse_append,
            List.reverse_cons, List.reverse_nil, List.nil_append, List.singleton_append,
            List.reverse_reverse, reduceCtorEq, if_false, if_true, sizeof_Header_eq,
            Nat.add_zero, Bool.false_eq_true, List.append_nil, e0]
          ring_nf
        | true =>
          simp only [free_blocks, coal, handles, handles_append, foot, List.reverse_append,
            List.reverse_cons, List.reverse_nil, List.nil_append, List.singleton_append,
            reduceCtorEq, if_false, if_true, sizeof_Header_eq, Nat.add_zero,
            Bool.false_eq_true, List.append_assoc, List.cons_append, e0]
          ring_nf

/-! ## Reachable states are well-formed -/

theorem expand_heap_brk (size : Int) (h : Heap)
    (hinc : add64 sizeof_Header (to_size_t size) < INTPTR_MIN_WORD) :
    (expand_heap size h).1 = h.brk ∧
    (expand_heap size h).2.brk = add64 h.brk (add64 sizeof_Header (to_size_t size)) := by
  unfold expand_heap
  rw [sbrk_grow hinc]
  refine ⟨rfl, ?_⟩
  unfold node_link
  simp only [set_size_tail, set_used_tail]
  split_ifs <;> rfl

theorem my_malloc_grow {b0 : Nat} {h : Heap} {s : Nat} {L : List (Bool × Nat)}
    (hr : Rep b0 h L) (hs : 0 < s) (hno : ∀ b ∈ L, ¬ (b.1 = false ∧ eff s ≤ b.2))
    (hinc : add64 sizeof_Header (eff s) < INTPTR_MIN_WORD) :
    my_malloc s h =
      some (add64 h.brk sizeof_Header, (expand_heap (to_int (round_up_size s)) h).2) := by
  have hno' : ∀ b ∈ L, ¬ (b.1 = false ∧ to_size_t (to_int (round_up_size s)) ≤ b.2) := hno
  have hf := findFreeBlock_none hr hno'
  have e0 : ¬ s = 0 := by omega
  simp only [my_malloc, e0, if_false, hf, NULL_eq, if_true]
  rw [(expand_heap_brk (to_int (round_up_size s)) h hinc).1]

theorem room_of_no_wrap {brk e : Nat} (hb : brk < WORD) (he : e ≤ 2147483640)
    (h : brk ≤ add64 brk (add64 32 e)) : brk + 32 + e < WORD := by
  unfold add64 WORD at *
  omega

/-- Every reachable state is a well-formed heap whose block list has no two adjacent
free blocks, a used last block and rounded sizes, and whose used blocks are exactly
the live handles. -/
theorem reachable_invariants {b0 : Nat} {h : Heap} {live : List Nat}
    (hR : Reachable b0 h live) :
    ∃ L, Rep b0 h L ∧ no_adjacent_free L ∧ tail_used L ∧ sizes_rounded L ∧
      ∀ q, q ∈ live ↔ q ∈ handles b0 L := by
  induction hR with
  | init h0 h1 =>
    refine ⟨[], ?_, ?_, ?_, ?_, ?_⟩
    · rw [Rep_nil_iff]; simp [empty_region, h0, h1]
    · exact List.chain'_nil
    · intro b hb; simp at hb
    · intro b hb; simp at hb
    · intro q; simp [handles]
  | @malloc h h' live s p _ h0 h1 hm hg ih =>
    obtain ⟨L, hr, g1, g2, g3, g4⟩ := ih
    obtain ⟨e1, e2, e3, e4, e5, e6⟩ := eff_fits h0 h1
    rcases first_fit_cases (eff s) L with hno | ⟨M, t, R, rfl, hno, hfit⟩
    · have hinc : add64 sizeof_Header (eff s) < INTPTR_MIN_WORD := by
        unfold add64 sizeof_Header INTPTR_MIN_WORD WORD; omega
      have hraw := my_malloc_grow hr h0 hno hinc
      rw [hraw] at hm
      simp only [Option.some.injEq, Prod.mk.injEq] at hm
      obtain ⟨hp, hh⟩ := hm
      have hroom : h.brk + sizeof_Header + eff s < WORD := by
        have hb := (expand_heap_brk (to_int (round_up_size s)) h hinc).2
        rw [hh] at hb
        rw [hb] at hg
        exact room_of_no_wrap hr.2.1 e5 hg
      obtain ⟨h2, hm2, hr2, _⟩ := my_malloc_expand hr h0 hno hroom (increment_fits e5)
      rw [hraw] at hm2
      simp only [Option.some.injEq, Prod.mk.injEq] at hm2
      obtain ⟨hp2, hh2⟩ := hm2
      rw [← hh, hh2]
      obtain ⟨k1, k2, k3⟩ := good_expand (e := eff s) g1 g3 e3 e4
      refine ⟨_, hr2, k1, k2, k3, ?_⟩
      intro q
      rw [handles_append, List.mem_cons, List.mem_append, g4 q, ← hp, hp2, Rep_brk hr]
      simp [handles]
      exact or_comm
    · by_cases hbig : eff s + sizeof_Header + MINIMUM_ALLOCATION ≤ t
      · obtain ⟨h2, hm2, hr2⟩ := my_malloc_split hr h0 hno hbig
        rw [hm2] at hm
        simp only [Option.some.injEq, Prod.mk.injEq] at hm
        obtain ⟨hp, hh⟩ := hm
        rw [← hh]
        simp only [sizeof_Header_eq, MINIMUM_ALLOCATION_eq] at hbig hr2
        obtain ⟨k1, k2, k3⟩ := good_split g1 g2 g3 e3 e4 hbig
        refine ⟨_, hr2, k1, k2, k3, ?_⟩
        intro q
        rw [List.mem_cons, g4 q, handles_append, handles_append, ← hp]
        simp only [handles, foot, sizeof_Header_eq, List.mem_append, List.mem_cons,
          reduceCtorEq, if_false, if_true, Bool.false_eq_true]
        rw [show b0 + foot M + 32 + eff s + 32 + (t - eff s - 32) = b0 + foot M + 32 + t by omega]
        exact or_left_comm
      · have hsmall : ¬ add64 (add64 (eff s) sizeof_Header) MINIMUM_ALLOCATION ≤ t := by
          simp only [sizeof_Header_eq, MINIMUM_ALLOCATION_eq] at hbig ⊢
          have a1 : add64 (eff s) 32 = eff s + 32 := add64_small (by unfold WORD; omega)
          rw [a1, add64_small (by unfold WORD; omega)]
          omega
        have hm2 := my_malloc_whole hr h0 hno hfit hsmall
        rw [hm2] at hm
        simp only [Option.some.injEq, Prod.mk.injEq] at hm
        obtain ⟨hp, hh⟩ := hm
        rw [← hh]
        obtain ⟨k1, k2, k3⟩ := good_whole g1 g2 g3
        refine ⟨_, Rep_set_used hr, k1, k2, k3, ?_⟩
        intro q
        rw [List.mem_cons, g4 q, handles_append, handles_append, ← hp]
        simp only [handles, foot, sizeof_Header_eq, List.mem_append, List.mem_cons,
          reduceCtorEq, if_false, if_true, Bool.false_eq_true]
        exact or_left_comm
  | @free h live p _ hp ih =>
    obtain ⟨L, hr, g1, g2, g3, g4⟩ := ih
    obtain ⟨L1, s, L2, rfl, rfl⟩ := mem_handles L b0 p ((g4 p).1 hp)
    obtain ⟨k1, k2, k3⟩ := good_free g1 g2 g3
    refine ⟨_, Rep_my_free hr, k1, k2, k3, ?_⟩
    intro q
    rw [handles_free, List.mem_filter, g4 q, handles_append]
    simp only [handles, if_true, List.mem_append, List.mem_cons, decide_eq_true_eq]
    have b1 := handles_bounds L1 b0 q
    have b2 := handles_bounds L2 (b0 + foot L1 + sizeof_Header + s) q
    simp only [sizeof_Header_eq] at *
    constructor
    · rintro ⟨h1 | h1 | h1, h2⟩
      · exact Or.inl h1
      · exact absurd h1 h2
      · exact Or.inr h1
    · rintro (h1 | h1)
      · exact ⟨Or.inl h1, by have := b1 h1; omega⟩
      · exact ⟨Or.inr (Or.inr h1), by have := b2 h1; omega⟩

/-- A reachable state with no live handle is the well-formed empty region. -/
theorem reachable_nothing_outstanding {b0 : Nat} {h : Heap} (hR : Reachable b0 h []) :
    Rep b0 h [] := by
  obtain ⟨L, hr, _, g2, _, g4⟩ := reachable_invariants hR
  rcases List.eq_nil_or_concat L with rfl | ⟨L0, ⟨u, s⟩, rfl⟩
  · exact hr
  · rw [List.concat_eq_append] at *
    have hu : u = true := by
      have := g2 (u, s) (by simp)
      simpa using this
    subst hu
    have hq := (g4 (b0 + foot L0 + sizeof_Header)).2 (by
      rw [handles_append]; simp [handles])
    simp at hq

/-- In a reachable state the footprints of the blocks add up to the size of the
managed region. -/
theorem reachable_coverage {b0 : Nat} {h : Heap} {live : List Nat}
    (hR : Reachable b0 h live) : ∃ L, Rep b0 h L ∧ h.brk - b0 = foot L := by
  obtain ⟨L, hr, _⟩ := reachable_invariants hR
  exact ⟨L, hr, by have := Rep_brk hr; omega⟩

/-! ## Reuse and release of two blocks when the address space has room for them -/

theorem two_blocks {b0 : Nat} {h : Heap} {s1 s2 : Nat} (hr : Rep b0 h [])
    (h1 : 0 < s1) (h2 : 0 < s2) (hf1 : s1 ≤ 2147483640) (hf2 : s2 ≤ 2147483640)
    (hroom : b0 + (sizeof_Header + eff s1) + (sizeof_Header + eff s2) < WORD) :
    ∃ ha hb, my_malloc s1 h = some (b0 + sizeof_Header, ha) ∧
      my_malloc s2 ha = some (b0 + sizeof_Header + eff s1 + sizeof_Header, hb) ∧
      Rep b0 hb [(true, eff s1), (true, eff s2)] := by
  have hb0 := Rep_brk hr
  simp only [foot, Nat.add_zero, sizeof_Header_eq] at hb0 hroom
  obtain ⟨ha, m1, r1, k1⟩ := my_malloc_expand hr h1 (by simp)
    (by simp only [sizeof_Header_eq]; omega) (increment_fits (eff_fits h1 hf1).2.2.2.2.1)
  simp only [List.nil_append, sizeof_Header_eq] at r1 k1
  obtain ⟨hb, m2, r2, k2⟩ := my_malloc_expand r1 h2 (by simp)
    (by simp only [sizeof_Header_eq]; omega) (increment_fits (eff_fits h2 hf2).2.2.2.2.1)
  refine ⟨ha, hb, ?_, ?_, by simpa using r2⟩
  · rw [m1, hb0]
  · rw [m2, k1, hb0]; rfl

/-- First-fit reuse for requests of at most `INT_MAX - 7` bytes: after
`a = my_malloc s`, `b = my_malloc s`, `my_free a`, the next `my_malloc s` returns `a`
and leaves the break where it is. -/
theorem first_fit_reuse_fits {b0 : Nat} {h : Heap} {s : Nat} (hr : Rep b0 h [])
    (h0 : 0 < s) (h1 : s ≤ 2147483640)
    (hroom : b0 + (sizeof_Header + eff s) + (sizeof_Header + eff s) < WORD) :
    ∃ a ha b hb hc, my_malloc s h = some (a, ha) ∧ my_malloc s ha = some (b, hb) ∧
      my_malloc s (my_free a hb) = some (a, hc) ∧ hc.brk = (my_free a hb).brk := by
  obtain ⟨e1, e2, e3, e4, e5, e6⟩ := eff_fits h0 h1
  obtain ⟨ha, hb, m1, m2, r2⟩ := two_blocks hr h0 h0 h1 h1 hroom
  have r2' : Rep b0 hb ([] ++ (true, eff s) :: [(true, eff s)]) := r2
  have r3 := Rep_my_free r2'
  simp only [foot, Nat.add_zero, free_blocks, coal, List.reverse_nil, reduceCtorEq, if_false,
    List.nil_append] at r3
  have r3' : Rep b0 (my_free (b0 + sizeof_Header) hb) ([] ++ (false, eff s) :: [(true, eff s)]) :=
    r3
  have hsmall : ¬ add64 (add64 (eff s) sizeof_Header) MINIMUM_ALLOCATION ≤ eff s := by
    simp only [sizeof_Header_eq, MINIMUM_ALLOCATION_eq]
    have a1 : add64 (eff s) 32 = eff s + 32 := add64_small (by unfold WORD; omega)
    rw [a1, add64_small (by unfold WORD; omega)]
    omega
  have m4 := my_malloc_whole r3' h0 (by simp) (Nat.le_refl _) hsmall
  simp only [foot, Nat.add_zero] at m4
  exact ⟨_, ha, _, hb, _, m1, m2, m4, set_used_brk _ _ _⟩

/-- Releasing both blocks for requests of at most `INT_MAX - 7` bytes, when the
address space has room for the two blocks: after `a = my_malloc s1`,
`b = my_malloc s2`, `my_free a`, `my_free b` the region is empty again. -/
theorem release_both_fits {b0 : Nat} {h : Heap} {s1 s2 : Nat} (hr : Rep b0 h [])
    (h1 : 0 < s1) (h2 : 0 < s2) (hf1 : s1 ≤ 2147483640) (hf2 : s2 ≤ 2147483640)
    (hroom : b0 + (sizeof_Header + eff s1) + (sizeof_Header + eff s2) < WORD) :
    ∃ a ha b hb, my_malloc s1 h = some (a, ha) ∧ my_malloc s2 ha = some (b, hb) ∧
      (my_free b (my_free a hb)).heap_head = NULL ∧
      (my_free b (my_free a hb)).heap_tail = NULL ∧
      (my_free b (my_free a hb)).brk = h.brk ∧ Rep b0 (my_free b (my_free a hb)) [] := by
  obtain ⟨ha, hb, m1, m2, r2⟩ := two_blocks hr h1 h2 hf1 hf2 hroom
  have r2' : Rep b0 hb ([] ++ (true, eff s1) :: [(true, eff s2)]) := r2
  have r3 := Rep_my_free r2'
  simp only [foot, Nat.add_zero, free_blocks, coal, List.reverse_nil, reduceCtorEq, if_false,
    List.nil_append] at r3
  have r3' : Rep b0 (my_free (b0 + sizeof_Header) hb) ([(false, eff s1)] ++ (true, eff s2) :: []) :=
    r3
  have r4 := Rep_my_free r3'
  simp only [foot, Nat.add_zero, free_blocks, coal, List.reverse_cons, List.reverse_nil,
    List.nil_append, if_true] at r4
  have r4' : Rep b0 (my_free (b0 + sizeof_Header + eff s1 + sizeof_Header)
      (my_free (b0 + sizeof_Header) hb)) [] := by
    simpa [Nat.add_assoc] using r4
  have k := Rep_nil_iff.1 r4'
  have k0 := Rep_nil_iff.1 hr
  exact ⟨_, ha, _, hb, m1, m2, k.2.2.1, k.2.2.2.1, by rw [k.2.2.2.2.1, k0.2.2.2.2.1], r4'⟩

/-! ## Claims C1 to C4: requests that do not fit the `int` parameter -/

/-- C1 (the code departs from it): `my_malloc 4294967296` on the empty region returns
the payload of a block that is in the list and used, but whose size field is `0`,
less than the request: the rounded size `2 ^ 32` becomes `0` in the `int` parameter
of `findFreeBlock` and `expand_heap`, and the region grows by a bare header. -/
theorem my_malloc_size_below_request :
    round_up_size 4294967296 = 4294967296 ∧ to_int 4294967296 = 0 ∧
    ∃ h1, my_malloc 4294967296 (empty_region 4096) = some (4128, h1) ∧
      h1.heap_head = 4096 ∧ h1.heap_tail = 4096 ∧ (h1.mem 4096).used = true ∧
      (h1.mem 4096).size = 0 ∧ (h1.mem 4096).size < 4294967296 ∧ h1.brk = 4096 + 32 :=
  ⟨by decide, by decide, _, rfl, by decide⟩

/-- C2 (the code departs from it): for the largest `size_t` value the addition of
`SIZE_MULTIPLE - 1` wraps around and `round_up_size` returns `0` for a request that
is not `0`. -/
theorem round_up_size_wraps :
    round_up_size 18446744073709551615 = 0 ∧ (18446744073709551615 : Nat) ≠ 0 ∧
    round_up_size 18446744073709551609 = 0 := by decide

/-- C3 (the code departs from it): the run `p1 = my_malloc 16`,
`p2 = my_malloc 4294967264`, `my_free p1`, `p3 = my_malloc 4294967264`, `my_free p3`
from the empty region ends with two consecutive free blocks at the head of the list.
The rounded size `4294967264` is `-32` as an `int`, so `expand_heap` asks `sbrk` for
`0` bytes and places both blocks at the same address. -/
theorem adjacent_free_after_truncated_requests :
    ∃ h1 h2 h4, my_malloc 16 (empty_region 4096) = some (4128, h1) ∧
      my_malloc 4294967264 h1 = some (4176, h2) ∧
      my_malloc 4294967264 (my_free 4128 h2) = some (4176, h4) ∧
      (my_free 4176 h4).heap_head = 4096 ∧
      ((my_free 4176 h4).mem 4096).used = false ∧
      ((my_free 4176 h4).mem 4096).next = 4144 ∧
      ((my_free 4176 h4).mem 4144).used = false ∧
      ((my_free 4176 h4).mem 4144).next = NULL ∧
      (my_free 4176 h4).heap_tail = 4144 :=
  ⟨_, _, _, rfl, rfl, rfl, by decide⟩

/-- C4 (the code departs from it): after `my_malloc 4294967288` on the empty region the
list holds one block whose header plus size is `32 + (2 ^ 64 - 8)` bytes while the
region has `24` bytes (the rounded size is `-8` as an `int`).  After `my_malloc 16`,
`p2 = my_malloc 4294967264`, `my_malloc 16`, `my_free p2` the list holds two blocks of
`48` bytes each in a region of `48` bytes. -/
theorem coverage_broken_by_truncated_requests :
    (∃ h1, my_malloc 4294967288 (empty_region 4096) = some (4128, h1) ∧
      h1.heap_head = 4096 ∧ h1.heap_tail = 4096 ∧ (h1.mem 4096).next = NULL ∧
      (h1.mem 4096).size = 18446744073709551608 ∧ h1.brk - 4096 = 24 ∧
      sizeof_Header + (h1.mem 4096).size ≠ h1.brk - 4096) ∧
    (∃ h1 h2 h3, my_malloc 16 (empty_region 4096) = some (4128, h1) ∧
      my_malloc 4294967264 h1 = some (4176, h2) ∧
      my_malloc 16 h2 = some (4176, h3) ∧
      (my_free 4176 h3).heap_head = 4096 ∧ (my_free 4176 h3).heap_tail = 4144 ∧
      ((my_free 4176 h3).mem 4096).size = 16 ∧ ((my_free 4176 h3).mem 4096).next = 4144 ∧
      ((my_free 4176 h3).mem 4144).size = 16 ∧ ((my_free 4176 h3).mem 4144).next = NULL ∧
      (my_free 4176 h3).brk - 4096 = 48) :=
  ⟨⟨_, rfl, by decide⟩, ⟨_, _, _, rfl, rfl, rfl, by decide⟩⟩

/-! ## Claim C5: releasing the last block -/

/-- C6 (the code departs from it): `my_malloc 3221225472` on the empty region, followed
at once by `my_free`, does not restore the region.  The region starts at `2 ^ 32`, so
that the break is larger than any decrement an `int` size can ask for.  The rounded
size is `-1073741824` as an `int`, so `expand_heap` asks `sbrk` to lower the break by
`1073741792` bytes, below its start: the break stays where it is and the header is
written at the break, with size `2 ^ 64 - 1073741824`.  `shrink_heap` then asks for
`-(32 + size)` bytes, an increment of `1073741792`: the list is empty again, but the
break ends `1073741792` bytes above its value before the call. -/
theorem round_trip_moves_break :
    round_up_size 3221225472 = 3221225472 ∧ to_int 3221225472 = -1073741824 ∧
    Rep 4294967296 (empty_region 4294967296) [] ∧
    ∃ h1, my_malloc 3221225472 (empty_region 4294967296) = some (4294967328, h1) ∧
      h1.heap_head = 4294967296 ∧ h1.heap_tail = 4294967296 ∧ h1.brk = 4294967296 ∧
      (h1.mem 4294967296).size = 18446744072635809792 ∧
      (my_free 4294967328 h1).heap_head = NULL ∧ (my_free 4294967328 h1).heap_tail = NULL ∧
      (my_free 4294967328 h1).brk = 5368709088 ∧
      (my_free 4294967328 h1).brk - (empty_region 4294967296).brk = 1073741792 :=
  ⟨by decide, by decide, by decide, _, rfl, by decide⟩

/-! ## The conversion `int → size_t` -/

theorem to_size_t_nonneg {i : Int} (h0 : 0 ≤ i) (h1 : i < 2147483648) :
    (to_size_t i : Int) = i := by
  unfold to_size_t WORD
  omega

theorem to_size_t_neg {i : Int} (h0 : i < 0) (h1 : -2147483648 ≤ i) :
    (to_size_t i : Int) = i + 18446744073709551616 := by
  unfold to_size_t WORD
  omega

/-! ## Claims C7 to C9: further consequences of the truncated size -/

/-- On a run without overlapping headers, here two requests of 40 bytes on the empty
region, byte-addressed memory and typed memory give the same handles, the same list
and the same break. -/
theorem bytes_agree_on_plain_run :
    (∃ h1 h2, Bytes.my_malloc 40 (Bytes.empty_region 4096) = Except.ok (4128, h1) ∧
      Bytes.my_malloc 40 h1 = Except.ok (4200, h2) ∧
      h2.heap_head = 4096 ∧ h2.heap_tail = 4168 ∧ h2.brk = 4240 ∧
      Bytes.get_size h2 4096 = Except.ok 40 ∧ Bytes.get_next h2 4096 = Except.ok 4168 ∧
      Bytes.get_size h2 4168 = Except.ok 40 ∧ Bytes.get_next h2 4168 = Except.ok NULL) ∧
    (∃ h1 h2, my_malloc 40 (empty_region 4096) = some (4128, h1) ∧
      my_malloc 40 h1 = some (4200, h2) ∧
      h2.heap_head = 4096 ∧ h2.heap_tail = 4168 ∧ h2.brk = 4240 ∧
      (h2.mem 4096).size = 40 ∧ (h2.mem 4096).next = 4168 ∧
      (h2.mem 4168).size = 40 ∧ (h2.mem 4168).next = NULL) :=
  ⟨⟨_, _, rfl, rfl, by decide, by decide, by decide, rfl, rfl, rfl, rfl⟩,
    ⟨_, _, rfl, rfl, by decide⟩⟩

/-- C7 (the code departs from it): for `s = 4294967288` the second `my_malloc s` does not
return, so the run never reaches `my_free a` and the third call.  The rounded size is
`-8` as an `int`.  The first call obtains 24 bytes and writes its header at `4096`.
The second call obtains the next 24 bytes and writes `used = true` at `4120`, the low
byte of the `next` field of the header at `4096`; `node_link` then reads
`after->next = 1`, takes its last branch and traps on the write of
`after->next->prev` at address `1 + 16`. -/
theorem first_fit_reuse_second_call_traps :
    to_int (round_up_size 4294967288) = -8 ∧
    ∃ h1, Bytes.my_malloc 4294967288 (Bytes.empty_region 4096) = Except.ok (4128, h1) ∧
      h1.heap_head = 4096 ∧ h1.heap_tail = 4096 ∧ h1.brk = 4120 ∧
      Bytes.get_next h1 4096 = Except.ok NULL ∧
      (Bytes.sbrk (add64 sizeof_Header (to_size_t (-8))) h1).1 = 4120 ∧
      (∃ h2, Bytes.set_used (Bytes.sbrk (add64 sizeof_Header (to_size_t (-8))) h1).2 4120 true =
          Except.ok h2 ∧ Bytes.get_next h2 4096 = Except.ok 1) ∧
      Bytes.my_malloc 4294967288 h1 = Except.error (Bytes.Stop.fault 17) :=
  ⟨by decide, _, rfl, by decide, by decide, by decide, rfl, by decide, ⟨_, rfl, rfl⟩, rfl⟩

/-- C8 (the code departs from it), on two inputs.  For `s1 = 4294967288` and `s2 = 40`
the second `my_malloc` does not return: the first block gets 24 bytes, the header of
the second is written inside the first header, and `node_link` traps on a write at
address `17`.  For `s1 = 40` and `s2 = 3221225472` the run ends with an empty list but
does not give the region back: the second rounded size is `-1073741824` as an `int`,
so `expand_heap` asks `sbrk` to lower the break by `1073741792` bytes, below its start;
the break stays at the end of `a` and the header of `b` is written there, with size
`2 ^ 64 - 1073741824`.  The second release merges `b` into `a`, whose size becomes
`2 ^ 64 - 1073741752`, and `shrink_heap` asks for `-(32 + size)` bytes, an increment of
`1073741720`: the break ends `1073741792` bytes above its initial value. -/
theorem release_both_departs :
    (∃ h1, Bytes.my_malloc 4294967288 (Bytes.empty_region 4096) = Except.ok (4128, h1) ∧
      h1.brk = 4120 ∧
      Bytes.my_malloc 40 h1 = Except.error (Bytes.Stop.fault 17)) ∧
    to_int (round_up_size 3221225472) = -1073741824 ∧
    Rep 4294967296 (empty_region 4294967296) [] ∧
    ∃ h1 h2, my_malloc 40 (empty_region 4294967296) = some (4294967328, h1) ∧
      h1.brk = 4294967368 ∧
      my_malloc 3221225472 h1 = some (4294967400, h2) ∧ h2.brk = 4294967368 ∧
      h2.heap_head = 4294967296 ∧ h2.heap_tail = 4294967368 ∧
      (h2.mem 4294967368).size = 18446744072635809792 ∧
      (my_free 4294967400 (my_free 4294967328 h2)).heap_head = NULL ∧
      (my_free 4294967400 (my_free 4294967328 h2)).heap_tail = NULL ∧
      (my_free 4294967400 (my_free 4294967328 h2)).brk = 5368709088 ∧
      (my_free 4294967400 (my_free 4294967328 h2)).brk - (empty_region 4294967296).brk =
        1073741792 :=
  ⟨⟨_, rfl, by decide, rfl⟩, by decide, by decide, _, _, rfl, by decide, rfl, by decide⟩

/-- C9 (the code departs from it): `my_malloc 4294967296` on the empty region appends a
block whose size is `0`, not the rounded size `4294967296`, and the region grows by
`sizeof(Header)` only. -/
theorem expand_block_size_truncated :
    round_up_size 4294967296 = 4294967296 ∧ 4294967296 % 8 = 0 ∧
    ∃ h1, my_malloc 4294967296 (empty_region 4096) = some (4096 + sizeof_Header, h1) ∧
      h1.heap_tail = 4096 ∧ (h1.mem h1.heap_tail).used = true ∧
      (h1.mem h1.heap_tail).size = 0 ∧
      (h1.mem h1.heap_tail).size ≠ round_up_size 4294967296 ∧
      h1.brk - (empty_region 4096).brk = sizeof_Header :=
  ⟨by decide, by decide, _, rfl, by decide⟩

/-! ## Claim C10: no split below the threshold -/

/-- C10: when the first free block that fits a request `size` (an `int`) has a size
below `size + sizeof(Header) + MINIMUM_ALLOCATION`, `findFreeBlock` returns it and the
new state is the old one with that block's used flag set: same blocks, same sizes. -/
theorem findFreeBlock_no_split {b0 : Nat} {h : Heap} {M R : List (Bool × Nat)} {t : Nat}
    {size : Int} (hr : Rep b0 h (M ++ (false, t) :: R))
    (hlo : -2147483648 ≤ size) (hhi : size < 2147483648)
    (hno : ∀ b ∈ M, ¬ (b.1 = false ∧ to_size_t size ≤ b.2))
    (hfit : to_size_t size ≤ t)
    (hsmall : (t : Int) < size + sizeof_Header + MINIMUM_ALLOCATION) :
    findFreeBlock size h = some (b0 + foot M, set_used h (b0 + foot M) true) ∧
    Rep b0 (set_used h (b0 + foot M) true) (M ++ (true, t) :: R) := by
  refine ⟨?_, Rep_set_used hr⟩
  obtain ⟨k, hk⟩ := findFreeBlock_at hr hno
  rw [hk]
  refine findFreeBlock_loop_whole hr hfit ?_
  obtain ⟨_, _, _, f4, f5, _⟩ := Rep_node hr
  simp only [sizeof_Header_eq, MINIMUM_ALLOCATION_eq] at hsmall ⊢
  by_cases h0 : 0 ≤ size
  · have e := to_size_t_nonneg h0 hhi
    have e1 : add64 (to_size_t size) 32 = to_size_t size + 32 :=
      add64_small (by unfold WORD at *; omega)
    rw [e1, add64_small (by unfold WORD at *; omega)]
    omega
  · have e := to_size_t_neg (by omega) hlo
    omega

/-- C10, witness: a free block of 104 bytes, the size `my_malloc 100` produces, is handed
out whole to a request of 96 bytes, the rounded size of `my_malloc 90`. -/
theorem findFreeBlock_no_split_witness :
    round_up_size 100 = 104 ∧ to_int (round_up_size 90) = 96 ∧
    Rep 4096 heap_free104_used ([] ++ (false, 104) :: [(true, 16)]) ∧
    findFreeBlock 96 heap_free104_used =
      some (4096 + foot [], set_used heap_free104_used (4096 + foot []) true) ∧
    Rep 4096 (set_used heap_free104_used (4096 + foot []) true)
      ([] ++ (true, 104) :: [(true, 16)]) :=
  have hr : Rep 4096 heap_free104_used ([] ++ (false, 104) :: [(true, 16)]) := by decide
  ⟨by decide, by decide, hr,
    findFreeBlock_no_split hr (by decide) (by decide) (by simp) (by decide) (by decide)⟩

/-! ## Claims C11 to C13: block sizes, the zero request and the null handle -/

/-- C11 (the code departs from it): `my_malloc 4294967296` on the empty region leaves a
block of size `0` in the list, and so does `my_malloc 18446744073709551615`, whose
rounding wraps around to `0`; neither size is at least `MINIMUM_ALLOCATION`. -/
theorem block_size_below_minimum :
    (∃ h1, my_malloc 4294967296 (empty_region 4096) = some (4128, h1) ∧
      h1.heap_head = 4096 ∧ h1.heap_tail = 4096 ∧ (h1.mem 4096).size = 0 ∧
      ¬ MINIMUM_ALLOCATION ≤ (h1.mem 4096).size) ∧
    (∃ h1, my_malloc 18446744073709551615 (empty_region 4096) = some (4128, h1) ∧
      h1.heap_head = 4096 ∧ h1.heap_tail = 4096 ∧ (h1.mem 4096).size = 0 ∧
      ¬ MINIMUM_ALLOCATION ≤ (h1.mem 4096).size) :=
  ⟨⟨_, rfl, by decide⟩, ⟨_, rfl, by decide⟩⟩

/-- C12: `my_malloc 0` returns `NULL` and leaves the whole state as it is. -/
theorem my_malloc_zero (h : Heap) : my_malloc 0 h = some (NULL, h) := by
  simp [my_malloc]

/-- C13: `my_free NULL` leaves the whole state as it is. -/
theorem my_free_null (h : Heap) : my_free NULL h = h := by
  simp [my_free]

/-! ## Claims C14 and C15: first fit and split -/

theorem findFreeBlock_loop_match {h : Heap} {size : Int} {n k : Nat} (hn : n ≠ NULL)
    (hu : (h.mem n).used = false) (hfit : to_size_t size ≤ (h.mem n).size) :
    ∃ h', findFreeBlock_loop size (k + 1) n h = some (n, h') := by
  simp only [findFreeBlock_loop, if_neg hn, hu, hfit, and_self, if_true]
  split_ifs
  · exact ⟨_, rfl⟩
  · exact ⟨_, rfl⟩

/-- C14 (amended): `findFreeBlock size` compares block sizes with `size` converted to
`size_t`, which is `size` itself for a non-negative `int` and `size + 2 ^ 64` for a
negative one.  On a well-formed heap the call returns; it returns `NULL` exactly when
no free block has a size of at least that value, and then the state is unchanged;
otherwise it returns the first block in list order that was free with a size of at
least that value: every block before it was used or smaller. -/
theorem findFreeBlock_first_fit {b0 : Nat} {h : Heap} {L : List (Bool × Nat)}
    (hr : Rep b0 h L) (size : Int) :
    (0 ≤ size → size < 2147483648 → (to_size_t size : Int) = size) ∧
    (size < 0 → -2147483648 ≤ size → (to_size_t size : Int) = size + 18446744073709551616) ∧
    ∃ p h', findFreeBlock size h = some (p, h') ∧
      (p = NULL ↔ ∀ b ∈ L, ¬ (b.1 = false ∧ to_size_t size ≤ b.2)) ∧
      (p = NULL → h' = h) ∧
      (p ≠ NULL → ∃ M t R, L = M ++ (false, t) :: R ∧ p = b0 + foot M ∧
        to_size_t size ≤ t ∧ ∀ b ∈ M, b.1 = true ∨ b.2 < to_size_t size) := by
  refine ⟨to_size_t_nonneg, to_size_t_neg, ?_⟩
  rcases first_fit_cases (to_size_t size) L with hno | ⟨M, t, R, rfl, hno, hfit⟩
  · refine ⟨NULL, h, findFreeBlock_none hr hno, ?_, fun _ => rfl, fun hp => absurd rfl hp⟩
    exact ⟨fun _ => hno, fun _ => rfl⟩
  · obtain ⟨k, hk⟩ := findFreeBlock_at hr hno
    obtain ⟨f1, f2, _, _, _, f6, _, _⟩ := Rep_node hr
    have hn : b0 + foot M ≠ NULL := by simp only [NULL_eq]; omega
    obtain ⟨h', hl⟩ := findFreeBlock_loop_match (k := k) hn f1 (by rw [f2]; exact hfit)
    refine ⟨b0 + foot M, h', by rw [hk, hl], ?_, fun hp => absurd hp hn, fun _ => ?_⟩
    · constructor
      · intro hp; exact absurd hp hn
      · intro hall
        exact absurd ⟨rfl, hfit⟩ (hall (false, t) (by simp))
    · refine ⟨M, t, R, rfl, rfl, hfit, ?_⟩
      intro b hb
      have := hno b hb
      cases hb1 : b.1 with
      | true => exact Or.inl rfl
      | false =>
        right
        by_contra hlt
        exact this ⟨hb1, by omega⟩

/-- C14, witness: on the heap with a free block of 104 bytes followed by a used block,
a request of 96 bytes is answered. -/
theorem findFreeBlock_first_fit_witness :
    Rep 4096 heap_free104_used [(false, 104), (true, 16)] ∧
    ∃ p h', findFreeBlock 96 heap_free104_used = some (p, h') ∧
      (p = NULL ↔ ∀ b ∈ [(false, 104), (true, 16)], ¬ (b.1 = false ∧ to_size_t 96 ≤ b.2)) ∧
      (p = NULL → h' = heap_free104_used) ∧
      (p ≠ NULL → ∃ M t R, [(false, 104), (true, 16)] = M ++ (false, t) :: R ∧
        p = 4096 + foot M ∧ to_size_t 96 ≤ t ∧ ∀ b ∈ M, b.1 = true ∨ b.2 < to_size_t 96) :=
  have hr : Rep 4096 heap_free104_used [(false, 104), (true, 16)] := by decide
  ⟨hr, (findFreeBlock_first_fit hr 96).2.2⟩

/-- C14, counterexample to the claim as worded: on the heap with a free block of 104
bytes followed by a used block, `findFreeBlock (-8)` returns `NULL` and changes
nothing, although the free block has a size of at least `-8`.  The comparison
`n->size >= size` converts the `int` to `size_t`, which turns `-8` into `2 ^ 64 - 8`.
`my_malloc` passes `-8` for a request of 4294967288 bytes. -/
theorem findFreeBlock_negative_size_finds_nothing :
    Rep 4096 heap_free104_used [(false, 104), (true, 16)] ∧
    findFreeBlock (-8) heap_free104_used = some (NULL, heap_free104_used) ∧
    (∃ b ∈ [(false, 104), (true, 16)], b.1 = false ∧ (-8 : Int) ≤ (b.2 : Int)) ∧
    to_size_t (-8) = 18446744073709551608 ∧
    to_int (round_up_size 4294967288) = -8 :=
  ⟨by decide, rfl, by decide, by decide, by decide⟩

/-- C15: when the first free block `m` that fits a request `size` (taken as the
`size_t` it is converted to, which leaves a non-negative `int` as it is) has a size `t` of at least
`size + sizeof(Header) + MINIMUM_ALLOCATION`, `findFreeBlock` returns `m` and leaves a
well-formed heap in which `m` is used with size `size`, a free block `r` of size
`t - size - sizeof(Header)`, at least `MINIMUM_ALLOCATION`, follows it at address
`m + sizeof(Header) + size`, linked back to `m` and forward to the old successor of
`m`; the blocks before and after are the same, and the footprints of `m` and `r` add
up to the old footprint of `m`. -/
theorem findFreeBlock_split_post {b0 : Nat} {h : Heap} {M R : List (Bool × Nat)} {t : Nat}
    {size : Int} (hr : Rep b0 h (M ++ (false, t) :: R))
    (hno : ∀ b ∈ M, ¬ (b.1 = false ∧ to_size_t size ≤ b.2))
    (hbig : to_size_t size + sizeof_Header + MINIMUM_ALLOCATION ≤ t) :
    (0 ≤ size → size < 2147483648 → (to_size_t size : Int) = size) ∧
    ∃ h', findFreeBlock size h = some (b0 + foot M, h') ∧
      Rep b0 h' (M ++ (true, to_size_t size) ::
        (false, t - to_size_t size - sizeof_Header) :: R) ∧
      (h'.mem (b0 + foot M)).used = true ∧
      (h'.mem (b0 + foot M)).size = to_size_t size ∧
      (h'.mem (b0 + foot M)).next = b0 + foot M + sizeof_Header + to_size_t size ∧
      (h'.mem (b0 + foot M + sizeof_Header + to_size_t size)).used = false ∧
      (h'.mem (b0 + foot M + sizeof_Header + to_size_t size)).size =
        t - to_size_t size - sizeof_Header ∧
      (h'.mem (b0 + foot M + sizeof_Header + to_size_t size)).prev = b0 + foot M ∧
      (h'.mem (b0 + foot M + sizeof_Header + to_size_t size)).next = (h.mem (b0 + foot M)).next ∧
      MINIMUM_ALLOCATION ≤ t - to_size_t size - sizeof_Header ∧
      (sizeof_Header + to_size_t size) + (sizeof_Header + (t - to_size_t size - sizeof_Header)) =
        sizeof_Header + t := by
  refine ⟨to_size_t_nonneg, ?_⟩
  obtain ⟨k, hk⟩ := findFreeBlock_at hr hno
  obtain ⟨h', hl, hr'⟩ := findFreeBlock_loop_split (k := k) hr hbig
  obtain ⟨_, _, o3, _⟩ := Rep_node hr
  obtain ⟨f1, f2, f3, _⟩ := Rep_node hr'
  have hr2 : Rep b0 h' ((M ++ [(true, to_size_t size)]) ++
      (false, t - to_size_t size - sizeof_Header) :: R) := by simpa using hr'
  obtain ⟨g1, g2, g3, _⟩ := Rep_node hr2
  have hp := Rep_prev hr'
  have e : foot (M ++ [(true, to_size_t size)]) = foot M + 32 + to_size_t size := by
    simp [foot_append, foot]; omega
  simp only [e, ← Nat.add_assoc] at g1 g2 g3
  simp only [sizeof_Header_eq, MINIMUM_ALLOCATION_eq] at *
  refine ⟨h', by rw [hk, hl], hr', f1, f2, by simpa using f3, g1, g2, hp, ?_, by omega,
    by omega⟩
  rw [g3, o3]
  split_ifs
  · rfl
  · omega

/-- C15, witness: a request of 16 bytes splits the free block of 104 bytes. -/
theorem findFreeBlock_split_post_witness :
    Rep 4096 heap_free104_used ([] ++ (false, 104) :: [(true, 16)]) ∧
    ∃ h', findFreeBlock 16 heap_free104_used = some (4096 + foot [], h') ∧
      Rep 4096 h' ([] ++ (true, to_size_t 16) ::
        (false, 104 - to_size_t 16 - sizeof_Header) :: [(true, 16)]) ∧
      (h'.mem (4096 + foot [])).used = true ∧
      (h'.mem (4096 + foot [])).size = to_size_t 16 ∧
      (h'.mem (4096 + foot [])).next = 4096 + foot [] + sizeof_Header + to_size_t 16 ∧
      (h'.mem (4096 + foot [] + sizeof_Header + to_size_t 16)).used = false ∧
      (h'.mem (4096 + foot [] + sizeof_Header + to_size_t 16)).size =
        104 - to_size_t 16 - sizeof_Header ∧
      (h'.mem (4096 + foot [] + sizeof_Header + to_size_t 16)).prev = 4096 + foot [] ∧
      (h'.mem (4096 + foot [] + sizeof_Header + to_size_t 16)).next =
        (heap_free104_used.mem (4096 + foot [])).next ∧
      MINIMUM_ALLOCATION ≤ 104 - to_size_t 16 - sizeof_Header ∧
      (sizeof_Header + to_size_t 16) + (sizeof_Header + (104 - to_size_t 16 - sizeof_Header)) =
        sizeof_Header + 104 :=
  have hr : Rep 4096 heap_free104_used ([] ++ (false, 104) :: [(true, 16)]) := by decide
  ⟨hr, (findFreeBlock_split_post hr (by simp) (by decide)).2⟩

/-! ## Claims C16 and C17: coalescing -/

theorem merged_list_skips {b0 s s2 : Nat} {u : Bool} {L1 L3 P S : List (Bool × Nat)}
    {c : Bool × Nat} (hL : L1 ++ (u, s + s2 + sizeof_Header) :: L3 = P ++ c :: S) :
    b0 + foot P ≠ b0 + foot L1 + sizeof_Header + s := by
  rcases List.append_eq_append_iff.1 hL with ⟨a, h1, h2⟩ | ⟨a, h1, h2⟩
  · cases a with
    | nil =>
      simp only [List.append_nil] at h1
      rw [h1]; simp only [sizeof_Header_eq]; omega
    | cons d a' =>
      simp only [List.cons_append, List.cons.injEq] at h2
      rw [h1, foot_append, ← h2.1]
      simp only [foot, sizeof_Header_eq]; omega
  · rw [h1, foot_append]
    simp only [sizeof_Header_eq]; omega

theorem Rep_tail {b0 : Nat} {h : Heap} {L : List (Bool × Nat)} {c : Bool × Nat}
    (hr : Rep b0 h (L ++ [c])) : h.heap_tail = b0 + foot L :=
  (Rep_node hr).2.2.2.2.2.2.1.2 rfl

/-- C17: on a well-formed heap, `node_coalesce_with_next` applied to a block with a
successor `nx` adds `nx.size + sizeof(Header)` to the block's size and keeps its used
flag; the old successor of `nx` becomes the block's successor and points back to the
block, or, when `nx` was last, the block's `next` is cleared and it becomes
`heap_tail`.  The list is the old one with the two blocks replaced by the merged one:
one block shorter, no block at the address of `nx`, all other blocks as before. -/
theorem node_coalesce_with_next_post {b0 : Nat} {h : Heap} {L1 L3 : List (Bool × Nat)}
    {u u2 : Bool} {s s2 : Nat} (hr : Rep b0 h (L1 ++ (u, s) :: (u2, s2) :: L3)) :
    Rep b0 (node_coalesce_with_next (b0 + foot L1) h)
      (L1 ++ (u, s + s2 + sizeof_Header) :: L3) ∧
    ((node_coalesce_with_next (b0 + foot L1) h).mem (b0 + foot L1)).size =
      (h.mem (b0 + foot L1)).size + (h.mem (h.mem (b0 + foot L1)).next).size + sizeof_Header ∧
    ((node_coalesce_with_next (b0 + foot L1) h).mem (b0 + foot L1)).used =
      (h.mem (b0 + foot L1)).used ∧
    ((node_coalesce_with_next (b0 + foot L1) h).mem (b0 + foot L1)).next =
      (h.mem (h.mem (b0 + foot L1)).next).next ∧
    (L3 = [] → ((node_coalesce_with_next (b0 + foot L1) h).mem (b0 + foot L1)).next = NULL ∧
      (node_coalesce_with_next (b0 + foot L1) h).heap_tail = b0 + foot L1) ∧
    (L3 ≠ [] →
      ((node_coalesce_with_next (b0 + foot L1) h).mem
        ((node_coalesce_with_next (b0 + foot L1) h).mem (b0 + foot L1)).next).prev =
          b0 + foot L1 ∧
      (node_coalesce_with_next (b0 + foot L1) h).heap_tail = h.heap_tail) ∧
    (L1 ++ (u, s + s2 + sizeof_Header) :: L3).length + 1 =
      (L1 ++ (u, s) :: (u2, s2) :: L3).length ∧
    (h.mem (b0 + foot L1)).next = b0 + foot L1 + sizeof_Header + s ∧
    (∀ P c S, L1 ++ (u, s + s2 + sizeof_Header) :: L3 = P ++ c :: S →
      b0 + foot P ≠ (h.mem (b0 + foot L1)).next) := by
  have hr' := Rep_coalesce_next hr
  obtain ⟨o1, o2, o3, _, _, _, o7, _⟩ := Rep_node hr
  have hr2 : Rep b0 h ((L1 ++ [(u, s)]) ++ (u2, s2) :: L3) := by simpa using hr
  obtain ⟨p1, p2, p3, _, _, _, p7, _⟩ := Rep_node hr2
  obtain ⟨n1, n2, n3, _, _, _, n7, _⟩ := Rep_node hr'
  have e : foot (L1 ++ [(u, s)]) = foot L1 + 32 + s := by
    simp [foot_append, foot]; omega
  simp only [e, ← Nat.add_assoc] at p1 p2 p3 p7
  simp only [reduceCtorEq, if_false] at o3
  have hnx : (h.mem (b0 + foot L1)).next = b0 + foot L1 + sizeof_Header + s := by
    rw [o3]; rfl
  refine ⟨hr', ?_, ?_, ?_, ?_, ?_, by simp; omega, hnx, ?_⟩
  · rw [n2, o2, o3, p2]
  · rw [n1, o1]
  · rw [n3, o3, p3]
    simp only [sizeof_Header_eq]
    split_ifs
    · rfl
    · omega
  · intro hL
    exact ⟨by rw [n3, if_pos hL]; rfl, n7.2 hL⟩
  · intro hL
    constructor
    · obtain ⟨c, L4, rfl⟩ := List.exists_cons_of_ne_nil hL
      have hq := Rep_prev hr'
      simp only [sizeof_Header_eq] at hq
      rw [n3, if_neg hL]; exact hq
    · rcases List.eq_nil_or_concat L3 with rfl | ⟨L4, d, rfl⟩
      · exact absurd rfl hL
      · rw [List.concat_eq_append] at hr hr'
        have t1 : Rep b0 (node_coalesce_with_next (b0 + foot L1) h)
            ((L1 ++ (u, s + s2 + sizeof_Header) :: L4) ++ [d]) := by simpa using hr'
        have t2 : Rep b0 h ((L1 ++ (u, s) :: (u2, s2) :: L4) ++ [d]) := by simpa using hr
        rw [Rep_tail t1, Rep_tail t2]
        simp only [foot_append, foot, sizeof_Header_eq]
        omega
  · intro P c S hL
    rw [hnx]
    exact merged_list_skips hL

/-- C17, witness: merging the two blocks of the heap with a free block of 16 bytes
followed by a used block of 16 bytes. -/
theorem node_coalesce_with_next_post_witness :
    Rep 4096 heap_free_used ([] ++ (false, 16) :: (true, 16) :: []) ∧
    Rep 4096 (node_coalesce_with_next (4096 + foot []) heap_free_used)
      ([] ++ (false, 16 + 16 + sizeof_Header) :: []) ∧
    ((node_coalesce_with_next (4096 + foot []) heap_free_used).mem (4096 + foot [])).next = NULL ∧
    (node_coalesce_with_next (4096 + foot []) heap_free_used).heap_tail = 4096 + foot [] :=
  have hr : Rep 4096 heap_free_used ([] ++ (false, 16) :: (true, 16) :: []) := by decide
  ⟨hr, (node_coalesce_with_next_post hr).1, (node_coalesce_with_next_post hr).2.2.2.2.1 rfl⟩

/-- C16: on a well-formed heap `node_coalesce_with_neighbors` returns the predecessor
of the block when there is one and it is free, and the block itself otherwise.  The
survivor absorbs the block (when the predecessor survives) and each free immediate
neighbour: its size grows by their sizes and one `sizeof(Header)` for each, those blocks
leave the list and the other blocks stay as they are.  With both neighbours free one
block spans all three; with none free the state is unchanged. -/
theorem node_coalesce_with_neighbors_post {b0 : Nat} {h : Heap} {L1 L2 : List (Bool × Nat)}
    {u : Bool} {s : Nat} (hr : Rep b0 h (L1 ++ (u, s) :: L2)) :
    (∀ L0 s0 s2 L3, L1 = L0 ++ [(false, s0)] → L2 = (false, s2) :: L3 →
      (node_coalesce_with_neighbors (b0 + foot L1) h).1 = (h.mem (b0 + foot L1)).prev ∧
      (node_coalesce_with_neighbors (b0 + foot L1) h).1 = b0 + foot L0 ∧
      Rep b0 (node_coalesce_with_neighbors (b0 + foot L1) h).2
        (L0 ++ (false, s0 + s + s2 + sizeof_Header + sizeof_Header) :: L3)) ∧
    (∀ L0 s0, L1 = L0 ++ [(false, s0)] → (∀ s2 L3, L2 ≠ (false, s2) :: L3) →
      (node_coalesce_with_neighbors (b0 + foot L1) h).1 = (h.mem (b0 + foot L1)).prev ∧
      (node_coalesce_with_neighbors (b0 + foot L1) h).1 = b0 + foot L0 ∧
      Rep b0 (node_coalesce_with_neighbors (b0 + foot L1) h).2
        (L0 ++ (false, s0 + s + sizeof_Header) :: L2)) ∧
    (∀ s2 L3, (∀ L0 s0, L1 ≠ L0 ++ [(false, s0)]) → L2 = (false, s2) :: L3 →
      (node_coalesce_with_neighbors (b0 + foot L1) h).1 = b0 + foot L1 ∧
      Rep b0 (node_coalesce_with_neighbors (b0 + foot L1) h).2
        (L1 ++ (u, s + s2 + sizeof_Header) :: L3)) ∧
    ((∀ L0 s0, L1 ≠ L0 ++ [(false, s0)]) → (∀ s2 L3, L2 ≠ (false, s2) :: L3) →
      node_coalesce_with_neighbors (b0 + foot L1) h = (b0 + foot L1, h)) := by
  obtain ⟨f1, f2, f3, f4, f5, f6, f7, f8⟩ := Rep_node hr
  refine ⟨?_, ?_, ?_, ?_⟩
  · rintro L0 s0 s2 L3 rfl rfl
    have e0 : foot (L0 ++ [(false, s0)]) = foot L0 + 32 + s0 := by
      simp [foot_append, foot]; omega
    have hr1 : Rep b0 h (L0 ++ (false, s0) :: (u, s) :: (false, s2) :: L3) := by simpa using hr
    have hp := Rep_prev hr1
    obtain ⟨g1, _⟩ := Rep_node hr1
    have hr2 : Rep b0 h ((L0 ++ [(false, s0), (u, s)]) ++ (false, s2) :: L3) := by
      simpa using hr
    obtain ⟨k1, _⟩ := Rep_node hr2
    have e2 : foot (L0 ++ [(false, s0), (u, s)]) = foot L0 + 32 + s0 + 32 + s := by
      simp [foot_append, foot]; omega
    simp only [e2, ← Nat.add_assoc] at k1
    simp only [e0, ← Nat.add_assoc, reduceCtorEq, if_false] at f3 f4 hp ⊢
    have e1 : ¬ b0 + foot L0 = 0 := by omega
    have e3 : ¬ b0 + foot L0 + 32 + s0 + 32 + s = 0 := by omega
    have hc := Rep_coalesce_next (Rep_coalesce_next hr1)
    have e4 : s0 + s + 32 + s2 + 32 = s0 + s + s2 + 32 + 32 := by omega
    simp only [sizeof_Header_eq, e4] at hc ⊢
    simp [node_coalesce_with_neighbors, hp, f3, e1, e3, g1, k1, hc]
  · rintro L0 s0 rfl hN
    have e0 : foot (L0 ++ [(false, s0)]) = foot L0 + 32 + s0 := by
      simp [foot_append, foot]; omega
    have hr1 : Rep b0 h (L0 ++ (false, s0) :: (u, s) :: L2) := by simpa using hr
    have hp := Rep_prev hr1
    obtain ⟨g1, _⟩ := Rep_node hr1
    simp only [e0, ← Nat.add_assoc] at f3 f4 hp ⊢
    have e1 : ¬ b0 + foot L0 = 0 := by omega
    have hc := Rep_coalesce_next hr1
    simp only [sizeof_Header_eq] at hc ⊢
    cases L2 with
    | nil =>
      simp only [if_true] at f3
      simp [node_coalesce_with_neighbors, hp, f3, e1, g1, hc]
    | cons c L3 =>
      obtain ⟨u2, s2⟩ := c
      have hu2 : u2 = true := by
        cases u2 with
        | false => exact absurd rfl (hN s2 L3)
        | true => rfl
      subst hu2
      have hr2 : Rep b0 h ((L0 ++ [(false, s0), (u, s)]) ++ (true, s2) :: L3) := by
        simpa using hr
      obtain ⟨k1, _⟩ := Rep_node hr2
      have e2 : foot (L0 ++ [(false, s0), (u, s)]) = foot L0 + 32 + s0 + 32 + s := by
        simp [foot_append, foot]; omega
      simp only [e2, ← Nat.add_assoc] at k1
      simp only [reduceCtorEq, if_false] at f3
      have e3 : ¬ b0 + foot L0 + 32 + s0 + 32 + s = 0 := by omega
      simp [node_coalesce_with_neighbors, hp, f3, e1, e3, g1, k1, hc]
  · rintro s2 L3 hP rfl
    have hr2 : Rep b0 h ((L1 ++ [(u, s)]) ++ (false, s2) :: L3) := by simpa using hr
    obtain ⟨k1, _⟩ := Rep_node hr2
    have e2 : foot (L1 ++ [(u, s)]) = foot L1 + 32 + s := by
      simp [foot_append, foot]; omega
    simp only [e2, ← Nat.add_assoc] at k1
    simp only [reduceCtorEq, if_false] at f3
    have e3 : ¬ b0 + foot L1 + 32 + s = 0 := by omega
    have hc := Rep_coalesce_next hr
    simp only [sizeof_Header_eq] at hc ⊢
    rcases List.eq_nil_or_concat L1 with rfl | ⟨L0, ⟨u0, s0⟩, rfl⟩
    · have hp := Rep_prev_nil hr
      simp only [foot, Nat.add_zero, List.nil_append] at *
      simp [node_coalesce_with_neighbors, hp, f3, e3, k1, hc]
    · rw [List.concat_eq_append] at *
      have hu0 : u0 = true := by
        cases u0 with
        | false => exact absurd rfl (hP L0 s0)
        | true => rfl
      subst hu0
      have e0 : foot (L0 ++ [(true, s0)]) = foot L0 + 32 + s0 := by
        simp [foot_append, foot]; omega
      have hr1 : Rep b0 h (L0 ++ (true, s0) :: (u, s) :: (false, s2) :: L3) := by
        simpa using hr
      have hp := Rep_prev hr1
      obtain ⟨g1, _⟩ := Rep_node hr1
      simp only [e0, ← Nat.add_assoc] at f3 k1 e3 hp hc ⊢
      simp only [List.append_assoc, List.singleton_append] at hc
      have e1 : ¬ b0 + foot L0 = 0 := by omega
      simp [node_coalesce_with_neighbors, hp, f3, e1, e3, g1, k1, hc]
  · intro hP hN
    rcases List.eq_nil_or_concat L1 with rfl | ⟨L0, ⟨u0, s0⟩, rfl⟩
    · have hp := Rep_prev_nil hr
      simp only [foot, Nat.add_zero, List.nil_append] at *
      cases L2 with
      | nil =>
        simp only [if_true] at f3
        simp [node_coalesce_with_neighbors, hp, f3]
      | cons c L3 =>
        obtain ⟨u2, s2⟩ := c
        have hu2 : u2 = true := by
          cases u2 with
          | false => exact absurd rfl (hN s2 L3)
          | true => rfl
        subst hu2
        have hr2 : Rep b0 h ([(u, s)] ++ (true, s2) :: L3) := hr
        obtain ⟨k1, _⟩ := Rep_node hr2
        simp only [foot, sizeof_Header_eq, Nat.add_zero, ← Nat.add_assoc] at k1
        simp only [reduceCtorEq, if_false] at f3
        have e3 : ¬ b0 + 32 + s = 0 := by omega
        simp [node_coalesce_with_neighbors, hp, f3, e3, k1]
    · rw [List.concat_eq_append] at *
      have hu0 : u0 = true := by
        cases u0 with
        | false => exact absurd rfl (hP L0 s0)
        | true => rfl
      subst hu0
      have e0 : foot (L0 ++ [(true, s0)]) = foot L0 + 32 + s0 := by
        simp [foot_append, foot]; omega
      have hr1 : Rep b0 h (L0 ++ (true, s0) :: (u, s) :: L2) := by simpa using hr
      have hp := Rep_prev hr1
      obtain ⟨g1, _⟩ := Rep_node hr1
      simp only [e0, ← Nat.add_assoc] at f3 f4 hp ⊢
      have e1 : ¬ b0 + foot L0 = 0 := by omega
      cases L2 with
      | nil =>
        simp only [if_true] at f3
        simp [node_coalesce_with_neighbors, hp, f3, e1, g1]
      | cons c L3 =>
        obtain ⟨u2, s2⟩ := c
        have hu2 : u2 = true := by
          cases u2 with
          | false => exact absurd rfl (hN s2 L3)
          | true => rfl
        subst hu2
        have hr2 : Rep b0 h ((L0 ++ [(true, s0), (u, s)]) ++ (true, s2) :: L3) := by
          simpa using hr
        obtain ⟨k1, _⟩ := Rep_node hr2
        have e2 : foot (L0 ++ [(true, s0), (u, s)]) = foot L0 + 32 + s0 + 32 + s := by
          simp [foot_append, foot]; omega
        simp only [e2, ← Nat.add_assoc] at k1
        simp only [reduceCtorEq, if_false] at f3
        have e3 : ¬ b0 + foot L0 + 32 + s0 + 32 + s = 0 := by omega
        simp [node_coalesce_with_neighbors, hp, f3, e1, e3, g1, k1]

/-- C16, witness: coalescing the used last block of the heap whose first block is free
returns the first block, which absorbs it. -/
theorem node_coalesce_with_neighbors_post_witness :
    Rep 4096 heap_free_used ([(false, 16)] ++ (true, 16) :: []) ∧
    (node_coalesce_with_neighbors (4096 + foot [(false, 16)]) heap_free_used).1 =
      (heap_free_used.mem (4096 + foot [(false, 16)])).prev ∧
    (node_coalesce_with_neighbors (4096 + foot [(false, 16)]) heap_free_used).1 =
      4096 + foot [] ∧
    Rep 4096 (node_coalesce_with_neighbors (4096 + foot [(false, 16)]) heap_free_used).2
      ([] ++ (false, 16 + 16 + sizeof_Header) :: []) :=
  have hr : Rep 4096 heap_free_used ([(false, 16)] ++ (true, 16) :: []) := by decide
  ⟨hr, (node_coalesce_with_neighbors_post hr).2.1 [] 16 rfl (by simp)⟩

/-! ## Claim C18: linking a node -/

theorem headD_append (A B : List Nat) (q : Nat) : (A ++ B).headD q = A.headD (B.headD q) := by
  cases A <;> simp

theorem getLastD_cons_cons (a : Nat) (A : List Nat) (p : Nat) :
    (a :: A).getLastD p = A.getLastD a := by
  cases A <;> simp [List.getLastD]

theorem Links_append {m : Nat → Header} {A B : List Nat} :
    ∀ {p q : Nat}, Links m p (A ++ B) q ↔
      Links m p A (B.headD q) ∧ Links m (A.getLastD p) B q := by
  induction A with
  | nil => intro p q; simp [Links]
  | cons a A ih =>
    intro p q
    show Links m p (a :: (A ++ B)) q ↔ _
    simp only [Links, ih, headD_append, getLastD_cons_cons]
    tauto

theorem Links_congr {m m' : Nat → Header} {as : List Nat} :
    ∀ {p q : Nat}, (∀ x ∈ as, (m' x).prev = (m x).prev ∧ (m' x).next = (m x).next) →
      Links m p as q → Links m' p as q := by
  induction as with
  | nil => intro p q _ _; trivial
  | cons a rest ih =>
    intro p q hm hl
    simp only [Links] at hl ⊢
    obtain ⟨h1, h2, h3, h4⟩ := hl
    have := hm a (by simp)
    refine ⟨h1, by rw [this.1]; exact h2, by rw [this.2]; exact h3, ih (fun x hx => hm x (by simp [hx])) h4⟩

theorem forward_of_Links {h : Heap} {as : List Nat} :
    ∀ {p : Nat} {fuel : Nat}, Links h.mem p as NULL → as.length < fuel →
      forward_traversal h fuel (as.headD NULL) = some as := by
  induction as with
  | nil =>
    intro p fuel _ hf
    obtain ⟨k, rfl⟩ : ∃ k, fuel = k + 1 := ⟨fuel - 1, by simp at hf; omega⟩
    simp [forward_traversal]
  | cons a rest ih =>
    intro p fuel hl hf
    obtain ⟨k, rfl⟩ : ∃ k, fuel = k + 1 := ⟨fuel - 1, by omega⟩
    simp only [Links] at hl
    obtain ⟨h1, h2, h3, h4⟩ := hl
    simp only [forward_traversal, List.headD_cons, h1, if_false, h3]
    rw [ih h4 (by simp at hf; omega)]
    rfl

theorem backward_of_Links {h : Heap} (as : List Nat) :
    ∀ {q : Nat} {fuel : Nat}, Links h.mem NULL as q → as.length < fuel →
      backward_traversal h fuel (as.getLastD NULL) = some as.reverse := by
  induction as using List.reverseRecOn with
  | nil =>
    intro q fuel _ hf
    obtain ⟨k, rfl⟩ : ∃ k, fuel = k + 1 := ⟨fuel - 1, by simp at hf; omega⟩
    simp [backward_traversal]
  | append_singleton A a ih =>
    intro q fuel hl hf
    obtain ⟨k, rfl⟩ : ∃ k, fuel = k + 1 := ⟨fuel - 1, by omega⟩
    rw [Links_append] at hl
    obtain ⟨h1, h2⟩ := hl
    simp only [Links, List.headD_cons, List.headD_nil, and_true] at h1 h2
    obtain ⟨g1, g2, g3⟩ := h2
    simp only [List.getLastD_concat, backward_traversal, g1, if_false, g2]
    rw [ih h1 (by simp at hf; omega)]
    simp

theorem Links_ne {m : Nat → Header} {as : List Nat} :
    ∀ {p q : Nat}, Links m p as q → ∀ x ∈ as, x ≠ NULL := by
  induction as with
  | nil => intro p q _ x hx; simp at hx
  | cons a rest ih =>
    intro p q hl x hx
    simp only [Links] at hl
    rcases List.mem_cons.1 hx with rfl | hx
    · exact hl.1
    · exact ih hl.2.2.2 x hx

theorem getLastD_cons_default (a : Nat) (A : List Nat) (p q : Nat) :
    (a :: A).getLastD p = (a :: A).getLastD q := by
  rw [getLastD_cons_cons, getLastD_cons_cons]

theorem getLastD_cons_mem (a : Nat) (A : List Nat) (p : Nat) :
    (a :: A).getLastD p ∈ a :: A := by
  induction A generalizing a p with
  | nil => simp
  | cons b A ih => rw [getLastD_cons_cons]; exact List.mem_cons_of_mem _ (ih b a)

theorem getLastD_append_cons (A : List Nat) (a : Nat) (B : List Nat) (p : Nat) :
    (A ++ a :: B).getLastD p = (a :: B).getLastD p := by
  induction A generalizing p with
  | nil => rfl
  | cons x A ih =>
    show (x :: (A ++ a :: B)).getLastD p = _
    rw [getLastD_cons_cons, ih, getLastD_cons_default a B x p]

theorem node_link_insert {h : Heap} {A B : List Nat} {n after : Nat}
    (hl : Linked h (A ++ after :: B)) (hn : n ≠ NULL)
    (hfresh : ∀ x ∈ A ++ after :: B, n + sizeof_Header ≤ x ∨ x + sizeof_Header ≤ n) :
    Linked (node_link n after h) (A ++ after :: n :: B) ∧
    ((node_link n after h).heap_tail = n ↔ after = h.heap_tail) ∧
    (after ≠ h.heap_tail → (node_link n after h).heap_tail = h.heap_tail) ∧
    (node_link n after h).heap_head = h.heap_head ∧
    (node_link n after h).brk = h.brk ∧
    ∀ x, ((node_link n after h).mem x).used = (h.mem x).used ∧
      ((node_link n after h).mem x).size = (h.mem x).size := by
  obtain ⟨hp, hk, hh, ht⟩ := hl
  have hne := Links_ne hk
  rw [Links_append] at hk
  obtain ⟨hA, hB⟩ := hk
  simp only [Links, List.headD_cons] at hA hB
  obtain ⟨a1, a2, a3, a4⟩ := hB
  rw [List.pairwise_append] at hp
  obtain ⟨pA, pB, pAB⟩ := hp
  rw [List.pairwise_cons] at pB
  obtain ⟨pa, pB⟩ := pB
  simp only [sizeof_Header_eq, NULL_eq] at *
  have fa : n ≠ after := by have := hfresh after (by simp); omega
  have fA : ∀ x ∈ A, x ≠ n ∧ x ≠ after := by
    intro x hx
    have := hfresh x (by simp [hx])
    have := pAB x hx after (by simp)
    omega
  have fB : ∀ x ∈ B, x ≠ n ∧ x ≠ after := by
    intro x hx
    have := hfresh x (by simp [hx])
    have := pa x hx
    omega
  have hpair : (A ++ after :: n :: B).Pairwise (fun x y => x + 32 ≤ y ∨ y + 32 ≤ x) := by
    rw [List.pairwise_append]
    refine ⟨pA, ?_, ?_⟩
    · rw [List.pairwise_cons]
      refine ⟨?_, ?_⟩
      · intro y hy
        rcases List.mem_cons.1 hy with rfl | hy
        · have := hfresh after (by simp); omega
        · exact pa y hy
      · rw [List.pairwise_cons]
        exact ⟨fun y hy => hfresh y (by simp [hy]), pB⟩
    · intro x hx y hy
      rcases List.mem_cons.1 hy with rfl | hy
      · exact pAB x hx _ (by simp)
      · rcases List.mem_cons.1 hy with rfl | hy
        · have := hfresh x (by simp [hx]); omega
        · exact pAB x hx y (by simp [hy])
  have e1 : ¬ n = 0 := hn
  have e2 : ¬ after = 0 := a1
  cases B with
  | nil =>
    simp only [List.headD_nil] at a3
    have hc : node_link n after h =
        { set_next (set_next (set_prev h n after) after n) n 0 with heap_tail := n } := by
      unfold node_link
      simp [e1, e2, a3]
    have ht' : h.heap_tail = after := by simpa using ht
    rw [hc]
    refine ⟨⟨hpair, ?_, ?_, ?_⟩, ?_, ?_, rfl, rfl, ?_⟩
    · rw [Links_append]
      refine ⟨?_, ?_⟩
      · refine Links_congr (fun x hx => ?_) hA
        have := fA x hx
        simp [this.1, this.2]
      · simp only [Links, List.headD_cons, List.headD_nil, and_true, NULL_eq]
        refine ⟨a1, ?_, ?_, hn, ?_, ?_⟩
        · simp [fa, Ne.symm fa, a2]
        · simp [fa, Ne.symm fa]
        · simp [fa, Ne.symm fa]
        · simp [fa, Ne.symm fa]
    · simpa using hh
    · simp
    · simp [ht']
    · intro hne'; exact absurd ht'.symm hne'
    · intro x
      simp only [set_next_mem, set_prev_mem]
      split_ifs <;> simp_all
  | cons c B' =>
    simp only [List.headD_cons] at a3
    simp only [Links, NULL_eq] at a4
    obtain ⟨c1, c2, c3, c4⟩ := a4
    rw [List.pairwise_cons] at pB
    obtain ⟨pc, pB'⟩ := pB
    have fc := fB c (by simp)
    have fB' : ∀ x ∈ B', x ≠ n ∧ x ≠ after ∧ x ≠ c := by
      intro x hx
      have := fB x (by simp [hx])
      have := pc x hx
      refine ⟨by omega, by omega, by omega⟩
    have fAc : ∀ x ∈ A, x ≠ c := by
      intro x hx
      have := pAB x hx c (by simp)
      omega
    have e3 : ¬ (h.mem after).next = 0 := by rw [a3]; exact c1
    have hc : node_link n after h =
        set_next (set_prev (set_prev (set_next h n c) n after) c n) after n := by
      unfold node_link
      simp [e1, e2, e3, a3, Ne.symm fa, c1]
    have ht' : h.heap_tail = (c :: B').getLastD 0 := by
      rw [ht, getLastD_append_cons, getLastD_cons_cons, getLastD_cons_default c B' after 0]
    have hm : (c :: B').getLastD 0 ∈ c :: B' := getLastD_cons_mem c B' 0
    have htn : h.heap_tail ≠ n := by rw [ht']; exact (fB _ hm).1
    have hta : h.heap_tail ≠ after := by rw [ht']; exact (fB _ hm).2
    rw [hc]
    refine ⟨⟨hpair, ?_, ?_, ?_⟩, ?_, ?_, rfl, rfl, ?_⟩
    · rw [Links_append]
      refine ⟨?_, ?_⟩
      · refine Links_congr (fun x hx => ?_) hA
        have := fA x hx
        have := fAc x hx
        simp [*]
      · simp only [Links, List.headD_cons, NULL_eq]
        refine ⟨a1, ?_, ?_, hn, ?_, ?_, c1, ?_, ?_, ?_⟩
        · simp [fa, Ne.symm fa, fc.2, Ne.symm fc.2, a2]
        · simp [fa, Ne.symm fa]
        · simp [fa, Ne.symm fa, fc.1, Ne.symm fc.1]
        · simp [fa, Ne.symm fa, fc.1, Ne.symm fc.1]
        · simp [fc.1, fc.2]
        · simp [fc.1, fc.2, c3]
        · refine Links_congr (fun x hx => ?_) c4
          have := fB' x hx
          simp [this.1, this.2.1, this.2.2]
    · simpa using hh
    · simp only [set_next_tail, set_prev_tail]
      rw [ht, getLastD_append_cons, getLastD_append_cons]
      simp only [getLastD_cons_cons]
    · simp only [set_next_tail, set_prev_tail]
      constructor
      · intro e; exact absurd e htn
      · intro e; exact absurd e.symm hta
    · intro _; rfl
    · intro x
      simp only [set_next_mem, set_prev_mem]
      split_ifs <;> simp_all

theorem Seg_Links {m : Nat → Header} {L : List (Bool × Nat)} :
    ∀ {p a x p' a' x' : Nat}, Seg m p a x L p' a' x' → 0 < x →
      Links m p (addrs x L) a' ∧ p' = (addrs x L).getLastD p ∧ a = (addrs x L).headD a' ∧
      (∀ y ∈ addrs x L, x ≤ y) ∧
      (addrs x L).Pairwise (fun u v => u + sizeof_Header ≤ v ∨ v + sizeof_Header ≤ u) := by
  induction L with
  | nil =>
    intro p a x p' a' x' hs _
    simp only [Seg] at hs
    simp [addrs, Links, hs.1, hs.2.1]
  | cons b rest ih =>
    intro p a x p' a' x' hs hx
    simp only [Seg] at hs
    obtain ⟨h1, _, _, h4, h5⟩ := hs
    obtain ⟨i1, i2, i3, i4, i5⟩ := ih h5 (by omega)
    simp only [addrs, Links, List.headD_cons, getLastD_cons_cons, List.pairwise_cons,
      List.mem_cons, NULL_eq, sizeof_Header_eq] at *
    refine ⟨⟨by omega, h4, i3, i1⟩, i2, h1, ?_, ?_, i5⟩
    · rintro y (rfl | hy)
      · exact Nat.le_refl _
      · have := i4 y hy; omega
    · intro y hy
      have := i4 y hy; omega

/-- The list of a well-formed heap is a well-formed list. -/
theorem Rep_Linked {b0 : Nat} {h : Heap} {L : List (Bool × Nat)} (hr : Rep b0 h L) :
    Linked h (addrs b0 L) := by
  obtain ⟨i1, i2, i3, _, i5⟩ := Seg_Links hr.2.2.1 hr.1.1
  exact ⟨i5, i1, i3, i2⟩

/-- C18, counterexample to the claim as worded: the list is empty and the block at
`4096`, which is not in it, holds `next = 4144`.  `node_link 4096 NULL` makes it head
and tail without writing its links, so the traversal from `heap_head` goes on to
`4144` instead of visiting exactly the block.  Likewise on the well-formed heap with
blocks at `4096` and `4144`, for a block at `8192` whose `next` holds `4096`: after
`node_link 8192 NULL` the traversal from `heap_head` visits `8192`, `4096`, `4144`. -/
theorem node_link_null_after_stale_next :
    Linked heap_stale_next [] ∧ (heap_stale_next.mem 4096).next = 4144 ∧
    (node_link 4096 NULL heap_stale_next).heap_head = 4096 ∧
    (node_link 4096 NULL heap_stale_next).heap_tail = 4096 ∧
    forward_traversal (node_link 4096 NULL heap_stale_next) 3
      (node_link 4096 NULL heap_stale_next).heap_head = some [4096, 4144] ∧
    Rep 4096 (set_next heap_free_used 8192 4096) [(false, 16), (true, 16)] ∧
    (node_link 8192 NULL (set_next heap_free_used 8192 4096)).heap_head = 8192 ∧
    (node_link 8192 NULL (set_next heap_free_used 8192 4096)).heap_tail = 8192 ∧
    forward_traversal (node_link 8192 NULL (set_next heap_free_used 8192 4096)) 4
      (node_link 8192 NULL (set_next heap_free_used 8192 4096)).heap_head =
        some [8192, 4096, 4144] ∧
    ∀ fuel, forward_traversal (node_link 4096 NULL heap_stale_next) fuel
      (node_link 4096 NULL heap_stale_next).heap_head ≠ some [4096] := by
  refine ⟨by decide, by decide, by decide, by decide, by decide, by decide, by decide,
    by decide, by decide, ?_⟩
  intro fuel
  have e : (node_link 4096 NULL heap_stale_next).heap_head = 4096 := by decide
  have e1 : ((node_link 4096 NULL heap_stale_next).mem 4096).next = 4144 := by decide
  rw [e]
  simp only [NULL_eq] at e1 ⊢
  rcases fuel with _ | _ | k
  · simp [forward_traversal]
  · simp [forward_traversal]
  · simp [forward_traversal, e1]

/-- C18 (amended): `node_link n after` for a non-null block `n` whose header overlaps no
header of a well-formed list.  When `after` is a node of the list (`A` before it, `B`
behind it), whatever `n->prev` and `n->next` held: the traversal from `heap_head` was
`A, after, B` and becomes `A, after, n, B`; the traversal from `heap_tail` along `prev`
is its reverse; the list is well-formed again; `heap_tail` becomes `n` exactly when
`after` was the tail and is unchanged otherwise; `heap_head`, the break and every
`used` and `size` field are unchanged.  When `after` is `NULL`: `heap_head` and
`heap_tail` become `n` and no field of any block is written, so the traversal from
`heap_head` visits exactly `n` when `n->next` was `NULL` already, and the traversal from
`heap_tail` visits exactly `n` when `n->prev` was `NULL`.  `node_link NULL after` changes
nothing. -/
theorem node_link_post (h : Heap) (n after : Nat) :
    (n ≠ NULL → ∀ A B : List Nat, Linked h (A ++ after :: B) →
      (∀ x ∈ A ++ after :: B, n + sizeof_Header ≤ x ∨ x + sizeof_Header ≤ n) →
      (∀ fuel, (A ++ after :: n :: B).length < fuel →
        forward_traversal h fuel h.heap_head = some (A ++ after :: B) ∧
        forward_traversal (node_link n after h) fuel (node_link n after h).heap_head =
          some (A ++ after :: n :: B) ∧
        backward_traversal (node_link n after h) fuel (node_link n after h).heap_tail =
          some (A ++ after :: n :: B).reverse) ∧
      Linked (node_link n after h) (A ++ after :: n :: B) ∧
      ((node_link n after h).heap_tail = n ↔ after = h.heap_tail) ∧
      (after ≠ h.heap_tail → (node_link n after h).heap_tail = h.heap_tail) ∧
      (node_link n after h).heap_head = h.heap_head ∧
      (node_link n after h).brk = h.brk ∧
      ∀ x, ((node_link n after h).mem x).used = (h.mem x).used ∧
        ((node_link n after h).mem x).size = (h.mem x).size) ∧
    (n ≠ NULL →
      (node_link n NULL h).heap_head = n ∧ (node_link n NULL h).heap_tail = n ∧
      (node_link n NULL h).mem = h.mem ∧ (node_link n NULL h).brk = h.brk ∧
      ((h.mem n).next = NULL → ∀ fuel, 1 < fuel →
        forward_traversal (node_link n NULL h) fuel (node_link n NULL h).heap_head =
          some [n]) ∧
      ((h.mem n).prev = NULL → ∀ fuel, 1 < fuel →
        backward_traversal (node_link n NULL h) fuel (node_link n NULL h).heap_tail =
          some [n])) ∧
    node_link NULL after h = h := by
  refine ⟨?_, ?_, ?_⟩
  · intro hn A B hl hfresh
    obtain ⟨k1, k2, k3, k4, k5, k6⟩ := node_link_insert hl hn hfresh
    refine ⟨?_, k1, k2, k3, k4, k5, k6⟩
    intro fuel hf
    refine ⟨?_, ?_, ?_⟩
    · rw [hl.2.2.1]
      exact forward_of_Links hl.2.1 (by simp at hf ⊢; omega)
    · rw [k1.2.2.1]
      exact forward_of_Links k1.2.1 hf
    · rw [k1.2.2.2]
      exact backward_of_Links _ k1.2.1 hf
  · intro hn
    have hc : node_link n NULL h = { h with heap_head := n, heap_tail := n } := by
      unfold node_link
      simp only [NULL_eq] at hn ⊢
      simp [hn]
    rw [hc]
    refine ⟨rfl, rfl, rfl, rfl, ?_, ?_⟩
    · intro hnext fuel hf
      obtain ⟨k, rfl⟩ : ∃ k, fuel = k + 2 := ⟨fuel - 2, by omega⟩
      simp only [NULL_eq] at hn hnext
      simp [forward_traversal, hn, hnext]
    · intro hprev fuel hf
      obtain ⟨k, rfl⟩ : ∃ k, fuel = k + 2 := ⟨fuel - 2, by omega⟩
      simp only [NULL_eq] at hn hprev
      simp [backward_traversal, hn, hprev]
  · unfold node_link; simp

/-- C18, witness: on the heap with blocks at `4096` and `4144`, a block at `8192`
whose `next` holds the stale value `4096` is linked after the block at `4096`; and on
the empty region the block at `4096`, whose links are null, is linked after `NULL`. -/
theorem node_link_post_witness :
    (8192 ≠ NULL ∧ Linked (set_next heap_free_used 8192 4096) ([] ++ 4096 :: [4144]) ∧
      ((set_next heap_free_used 8192 4096).mem 8192).next = 4096 ∧
      forward_traversal (node_link 8192 4096 (set_next heap_free_used 8192 4096)) 4
        (node_link 8192 4096 (set_next heap_free_used 8192 4096)).heap_head =
          some [4096, 8192, 4144] ∧
      backward_traversal (node_link 8192 4096 (set_next heap_free_used 8192 4096)) 4
        (node_link 8192 4096 (set_next heap_free_used 8192 4096)).heap_tail =
          some [4144, 8192, 4096]) ∧
    (4096 ≠ NULL ∧ ((empty_region 4096).mem 4096).next = NULL ∧
      forward_traversal (node_link 4096 NULL (empty_region 4096)) 2
        (node_link 4096 NULL (empty_region 4096)).heap_head = some [4096]) :=
  have hl : Linked (set_next heap_free_used 8192 4096) ([] ++ 4096 :: [4144]) := by decide
  have t1 := ((node_link_post (set_next heap_free_used 8192 4096) 8192 4096).1 (by decide)
    [] [4144] hl (by decide)).1 4 (by decide)
  ⟨⟨by decide, hl, by decide, t1.2.1, t1.2.2⟩,
    by decide, rfl,
    ((node_link_post (empty_region 4096) 4096 NULL).2.1 (by decide)).2.2.2.2.1 rfl 2
      (by decide)⟩

/-! ## Claim C19 -/

/-- C19 (the code departs from it): the run `my_malloc 16`, `p2 = my_malloc 4294967264`,
`my_malloc 4294967264`, `my_free p2` from the empty region ends with a free block as
`heap_tail`, after a used block.  The rounded size `4294967264` is `-32` as an `int`,
so `expand_heap` asks `sbrk` for `0` bytes and places both large blocks at the same
address. -/
theorem free_tail_after_truncated_requests :
    ∃ h1 h2 h3, my_malloc 16 (empty_region 4096) = some (4128, h1) ∧
      my_malloc 4294967264 h1 = some (4176, h2) ∧
      my_malloc 4294967264 h2 = some (4176, h3) ∧
      (my_free 4176 h3).heap_head = 4096 ∧
      ((my_free 4176 h3).mem 4096).used = true ∧
      ((my_free 4176 h3).mem 4096).next = 4144 ∧
      (my_free 4176 h3).heap_tail = 4144 ∧
      ((my_free 4176 h3).mem (my_free 4176 h3).heap_tail).used = false :=
  ⟨_, _, _, rfl, rfl, rfl, by decide⟩

/-! ## Claim C20: the general round trip -/

end CustomMalloc
